import Mathlib

/-!
Verification of core syncback components of the Rojo fork.

Shallow embedding of:
 - `src/syncback/file_names.rs` (`is_valid_file_name`, `name_for_inst`)
 - `src/snapshot_middleware/rbxm.rs` (`snapshot_rbxm`, `syncback_rbxm`)
 - `src/snapshot_middleware/dir.rs` (relevant-path computation of
   `snapshot_dir_no_meta`, `syncback_update`, `syncback_new`)
 - `src/snapshot/tree.rs` (`RojoTree` state, metadata/path-index operations,
   `fix_unique_id_collisions`, `syncback_process`)

Paths are modelled as strings, `PathBuf::join` as appending "/" plus the
component. Rust `HashMap` property bags are modelled as association lists
(one fixed iteration order). Machine integers do not occur in the verified
fragment except as character code points.
-/

namespace Rojo

/-! Section: file_names.rs -/

/-- The `INVALID_WINDOWS_NAMES` from `src/syncback/file_names.rs`. -/
def INVALID_WINDOWS_NAMES : List String :=
  ["CON", "PRN", "AUX", "NUL", "COM1", "COM2", "COM3", "COM4", "COM5", "COM6",
   "COM7", "COM8", "COM9", "LPT1", "LPT2", "LPT3", "LPT4", "LPT5", "LPT6",
   "LPT7", "LPT8", "LPT9"]

/-- The `FORBIDDEN_CHARS` from `src/syncback/file_names.rs`. -/
def FORBIDDEN_CHARS : List Char :=
  ['<', '>', ':', '"', '/', '|', '?', '*', '\\']

/-- Rust `char::is_control`: the Unicode Cc category, i.e. U+0000..U+001F
and U+007F..U+009F. -/
def charIsControl (c : Char) : Bool :=
  c.val ≤ 0x1f || (0x7f ≤ c.val && c.val ≤ 0x9f)

/-- Rust `str::ends_with(c)` for a single character: the last character of
the string equals `c`. -/
def strEndsWithChar (s : String) (c : Char) : Bool :=
  s.data.getLast? = some c

/-- The `is_valid_file_name` from `src/syncback/file_names.rs`. -/
def is_valid_file_name (s : String) : Bool :=
  if strEndsWithChar s ' ' || strEndsWithChar s '.' then
    false
  else if s.data.any (fun c => charIsControl c || FORBIDDEN_CHARS.contains c) then
    false
  else if INVALID_WINDOWS_NAMES.contains s then
    false
  else
    true

/-- The `InstigatingSource` from the snapshot metadata module: either a direct
filesystem path or a position inside a project file (which also records the
project file's path). -/
inductive InstigatingSource where
  | path (p : String)
  | projectNode (p : String)
deriving DecidableEq, Repr

/-- The `InstigatingSource::path()`: the underlying path of either variant. -/
def InstigatingSource.sourcePath : InstigatingSource → String
  | .path p => p
  | .projectNode p => p

/-- Splits a character list at every occurrence of `sep`. -/
def splitOnCharAux (sep : Char) : List Char → List Char → List (List Char)
  | [], acc => [acc.reverse]
  | c :: rest, acc =>
    if c = sep then acc.reverse :: splitOnCharAux sep rest []
    else splitOnCharAux sep rest (c :: acc)

/-- Modelled from the spec: `std::path::Path::file_name().and_then(to_str)` —
the final path component, `none` for an empty final component. Paths are
strings with `/` separators and always valid unicode in this model. -/
def pathFileName (p : String) : Option String :=
  match (splitOnCharAux '/' p.data []).getLast? with
  | some s => if s.isEmpty then none else some (String.mk s)
  | none => none

/-- The `Middleware` enum from `src/snapshot_middleware` as matched on by
`src/syncback/file_names.rs`. -/
inductive Middleware where
  | csv | jsonModel | json | serverScript | clientScript | moduleScript
  | project | rbxm | rbxmx | toml | text | ignore
  | dir | csvDir | serverScriptDir | clientScriptDir | moduleScriptDir
deriving DecidableEq, Repr

/-- The `extension_for_middleware` from `src/syncback/file_names.rs`; the
`unimplemented!` arms (directory middlewares and `Ignore`) are modelled as
`none`. -/
def extension_for_middleware : Middleware → Option String
  | .csv => some "csv"
  | .jsonModel => some "model.json"
  | .json => some "json"
  | .serverScript => some "server.luau"
  | .clientScript => some "client.luau"
  | .moduleScript => some "luau"
  | .project => some "project.json"
  | .rbxm => some "rbxm"
  | .rbxmx => some "rbxmx"
  | .toml => some "toml"
  | .text => some "txt"
  | .ignore => none
  | .dir | .csvDir | .serverScriptDir | .clientScriptDir | .moduleScriptDir => none

/-- The slice of `InstanceMetadata` consulted by `name_for_inst`: only the
instigating source of the old instance. -/
structure OldInstMeta where
  instigatingSource : Option InstigatingSource
deriving DecidableEq, Repr

/-- The `name_for_inst` from `src/syncback/file_names.rs`. Panics of
`extension_for_middleware` are modelled as errors; they are unreachable for
the middlewares the fresh-node arm dispatches to it. -/
def name_for_inst (middleware : Middleware) (newInstName : String)
    (oldInst : Option OldInstMeta) : Except String String :=
  match oldInst with
  | some old =>
    match old.instigatingSource with
    | some source =>
      match pathFileName source.sourcePath with
      | some s => .ok s
      | none => .error "sources on the file system should be valid unicode and not be stubs"
    | none => .error "members of 'old' trees should have an instigating source!"
  | none =>
    match middleware with
    | .dir | .csvDir | .serverScriptDir | .clientScriptDir | .moduleScriptDir =>
      .ok newInstName
    | _ =>
      match extension_for_middleware middleware with
      | some extension =>
        if is_valid_file_name newInstName then
          .ok (newInstName ++ "." ++ extension)
        else
          .error ("name '" ++ newInstName ++ "' is not legal to write to the file system")
      | none => .error "unreachable: syncback does not work on Ignore middleware"

/-! Section: rbxm.rs -/

/-- Property values. Only the `UniqueId` constructor is inspected by the
verified fragment (`fix_unique_id_collisions`); every other `Variant`
constructor is collapsed into `other`. -/
inductive Variant where
  | uniqueId (id : String)
  | other (tag : String)
deriving DecidableEq, Repr

/-- A plain instance subtree (`rbx_dom_weak` instance data): class name,
name, property bag and ordered children. Property bags are association
lists. -/
inductive RInst where
  | mk (className : String) (name : String)
      (properties : List (String × Variant)) (children : List RInst)

def RInst.className : RInst → String
  | .mk c _ _ _ => c

def RInst.name : RInst → String
  | .mk _ n _ _ => n

def RInst.properties : RInst → List (String × Variant)
  | .mk _ _ p _ => p

def RInst.children : RInst → List RInst
  | .mk _ _ _ cs => cs

/-- The `FsSnapshot` from the syncback module: a deferred batch of file writes
and directory creations. -/
structure FsSnapshot where
  files : List (String × List Nat) := []
  dirs : List String := []
deriving DecidableEq, Repr

/-- The `FsSnapshot::new()`. -/
def FsSnapshot.new : FsSnapshot := {}

/-- The `FsSnapshot::with_added_file(path, data)`. -/
def FsSnapshot.with_added_file (fs : FsSnapshot) (path : String)
    (data : List Nat) : FsSnapshot :=
  { fs with files := fs.files ++ [(path, data)] }

/-- The slice of `InstanceMetadata` used by the verified fragment:
provenance (`instigating_source`, `relevant_paths`, `middleware_id`), the
files this node owns on disk (`fs_snapshot`), and the
`context.should_syncback_path` ignore-rule test consulted by the syncback
driver. -/
structure SnapMetadata where
  instigatingSource : Option InstigatingSource := none
  relevantPaths : List String := []
  middlewareId : Option String := none
  fsSnapshot : Option FsSnapshot := none
  shouldSyncbackPath : String → Bool := fun _ => true

/-- An `InstanceSnapshot`: name, class, properties, children subtrees and
metadata. -/
structure InstanceSnapshotR where
  name : String
  className : String
  properties : List (String × Variant)
  children : List RInst
  metadata : SnapMetadata

/-- The `snapshot_rbxm` from `src/snapshot_middleware/rbxm.rs`, applied to the
already-parsed model file. Its input is the list of top-level children of
the parsed temporary tree; `InstanceSnapshot::from_tree(temp_tree, child)`
becomes the child's class, properties and children, and `.name(name)`
overrides the name. -/
def snapshot_rbxm (rootChildren : List RInst) (path name : String) :
    Except String InstanceSnapshotR :=
  match rootChildren with
  | [child] =>
    .ok { name := name
          className := child.className
          properties := child.properties
          children := child.children
          metadata :=
            { instigatingSource := some (.path path)
              relevantPaths := [path]
              middlewareId := none } }
  | _ =>
    .error ("Rojo currently only supports model files with one top-level instance.\n\n Check the model file at path " ++ path)

/-- Association-list lookup, the model of `HashMap::get`. -/
def alistLookup {α β : Type} [DecidableEq α] : List (α × β) → α → Option β
  | [], _ => none
  | kv :: rest, k => if kv.1 = k then some kv.2 else alistLookup rest k

/-- A `WeakDom` modelled as an association from referents to instance data;
only passed through to the hash and serialization parameters here. -/
def RDom := List (Nat × RInst)

/-- The `SyncbackReturn` from the syncback module. Child and removed-child
payloads are irrelevant to the rbxm middleware (it always returns them
empty), so they are modelled by referents. -/
structure SyncbackReturn where
  instSnapshot : InstanceSnapshotR
  fsSnapshot : FsSnapshot
  children : List Nat
  removedChildren : List Nat

/-- The `syncback_rbxm` from `src/snapshot_middleware/rbxm.rs`.

`hash_tree` (from `src/syncback/hash`, not under `src/`) is modelled from
the spec as a parameter: a canonical content hash for every referent of a
subtree. `rbx_binary::to_writer` is the external codec, also a parameter.
`cloned` is the result of `clone_and_filter` — the new subtree with the
property-save filter applied — and `clonedSnapshot` is
`InstanceSnapshot::from_instance` of its root, `newInstSnapshot` the same
for the unfiltered new instance. -/
def syncback_rbxm
    (hash_tree : RDom → Nat → List (Nat × Nat))
    (serialize : RDom → Nat → List Nat)
    (cloned : RDom × Nat)
    (oldTree : RDom)
    (old : Option Nat)
    (newInstSnapshot clonedSnapshot : InstanceSnapshotR)
    (parentPath fileName : String) : Except String SyncbackReturn :=
  let path := parentPath ++ "/" ++ fileName
  let dom := cloned.1
  let referent := cloned.2
  let serialized :=
    Except.ok (ε := String) (serialize dom referent)
  match old with
  | some oldRef =>
    if alistLookup (hash_tree dom referent) referent
        = alistLookup (hash_tree oldTree oldRef) oldRef then
      .ok { instSnapshot := clonedSnapshot
            fsSnapshot := FsSnapshot.new
            children := []
            removedChildren := [] }
    else
      serialized.map (fun bytes =>
        { instSnapshot := newInstSnapshot
          fsSnapshot := FsSnapshot.new.with_added_file path bytes
          children := []
          removedChildren := [] })
  | none =>
    serialized.map (fun bytes =>
      { instSnapshot := newInstSnapshot
        fsSnapshot := FsSnapshot.new.with_added_file path bytes
        children := []
        removedChildren := [] })

/-! Section: dir.rs: relevant-path computation -/

/-- The `Path::join` on the string model of paths. -/
def pathJoin (p name : String) : String := p ++ "/" ++ name

/-- Relevant paths of `snapshot_dir_no_meta`
(`src/snapshot_middleware/dir.rs`): the directory path itself,
`init.meta.json` under it, and each registered init name under it. The init
names declared by the middleware registry (`get_middlewares()`, not under
`src/`) are the `inits` parameter. -/
def snapshot_dir_relevant_paths (inits : List String) (path : String) :
    List String :=
  [path, pathJoin path "init.meta.json"] ++ inits.map (pathJoin path)

/-- The metadata fields written by `syncback_update`
(`src/snapshot_middleware/dir.rs` lines 141–146) and `syncback_new`
(lines 339–344): middleware id `"directory"`, instigating source
`Path(path)`, and relevant paths rebuilt from `get_middleware_inits()`
(the registry's init-name table, not under `src/`, passed as `inits`). -/
def syncback_dir_metadata (inits : List String) (path : String)
    (metadata : SnapMetadata) : SnapMetadata :=
  { metadata with
    middlewareId := some "directory"
    instigatingSource := some (.path path)
    relevantPaths := inits.map (pathJoin path) }

/-! Section: tree.rs: fix_unique_id_collisions -/

/-- The per-node property pass of `fix_unique_id_collisions`
(`src/snapshot/tree.rs` lines 84–102): walk the keys of the property bag;
a `UniqueId` value already in the seen set marks a conflict and the
property is removed, otherwise the value is added to the seen set. -/
def fixProps : List String → List (String × Variant) →
    List (String × Variant) × List String
  | seen, [] => ([], seen)
  | seen, (k, v) :: rest =>
    match v with
    | .uniqueId id =>
      if id ∈ seen then
        fixProps seen rest
      else
        let r := fixProps (id :: seen) rest
        ((k, v) :: r.1, r.2)
    | .other t =>
      let r := fixProps seen rest
      ((k, .other t) :: r.1, r.2)

/-- The stack loop of `fix_unique_id_collisions`: `processing` is a `Vec`
used with `pop`/`extend(children)`, so the last pushed child is processed
first and its whole subtree is finished before its earlier siblings. This
function processes a stack segment in that order: later list entries
first, each entry's property pass before its children. The instance
structure (class, name, child order) is untouched. -/
def fixForestRev : List String → List RInst → List RInst × List String
  | seen, [] => ([], seen)
  | seen, .mk c n props children :: cs =>
    let r := fixForestRev seen cs
    let rp := fixProps r.2 props
    let rc := fixForestRev rp.2 children
    (.mk c n rp.1 rc.1 :: r.1, rc.2)
termination_by seen l => sizeOf l

/-- The `RojoTree::fix_unique_id_collisions` from `src/snapshot/tree.rs`,
applied to the root instance: the root's properties are processed against
an empty seen set, then its children through the stack loop. -/
def fix_unique_id_collisions : RInst → RInst
  | .mk c n props children =>
    let rp := fixProps [] props
    let rc := fixForestRev rp.2 children
    .mk c n rp.1 rc.1

/-- All `UniqueId` property values of a property bag, in bag order. -/
def uidsOfProps : List (String × Variant) → List String
  | [] => []
  | (_, .uniqueId id) :: rest => id :: uidsOfProps rest
  | (_, .other _) :: rest => uidsOfProps rest

/-- All `UniqueId` property values of a forest, node properties before
children, children in their stored order. -/
def uidsOfForest : List RInst → List String
  | [] => []
  | .mk _ _ props children :: cs =>
    uidsOfProps props ++ (uidsOfForest children ++ uidsOfForest cs)
termination_by l => sizeOf l

/-- The multiset of `UniqueId` values of a whole tree. -/
def collectUids (t : RInst) : List String := uidsOfForest [t]

/-- Reverses the child order of every node of every tree in a forest,
keeping the outer list order. -/
def mirrorForest : List RInst → List RInst
  | [] => []
  | .mk c n props children :: cs =>
    .mk c n props (mirrorForest children).reverse :: mirrorForest cs
termination_by l => sizeOf l

/-- Reverses the child order of every node of a tree. -/
def mirrorT : RInst → RInst
  | .mk c n props children => .mk c n props (mirrorForest children).reverse

/-- Forest-level mirror: reverse the list and the children of every node. -/
def mirrorF (l : List RInst) : List RInst := (mirrorForest l).reverse

/-- The deduplication pass as the spec describes it: preorder, earlier list
entries first, child order preserved, a `UniqueId` occurrence is kept iff
its value was not seen earlier in that traversal. -/
def fixForestFwd : List String → List RInst → List RInst × List String
  | seen, [] => ([], seen)
  | seen, .mk c n props children :: cs =>
    let rp := fixProps seen props
    let rc := fixForestFwd rp.2 children
    let r := fixForestFwd rc.2 cs
    (.mk c n rp.1 rc.1 :: r.1, r.2)
termination_by seen l => sizeOf l

/-! Section: tree.rs: the RojoTree state and its metadata/path-index operations -/

/-- The instance storage of `WeakDom`, modelled as a rose tree carrying the
referent at every node. Referents are allocated from a counter, so they are
stable and never reused. -/
inductive ITree where
  | mk (ref : Nat) (className : String) (name : String)
      (props : List (String × Variant)) (children : List ITree)

def ITree.ref : ITree → Nat
  | .mk r _ _ _ _ => r

def ITree.childrenI : ITree → List ITree
  | .mk _ _ _ _ cs => cs

/-- An `InstanceSnapshot` with per-node metadata at every level, as consumed
by `RojoTree::new` and `RojoTree::insert_instance`. -/
inductive Snap where
  | mk (className : String) (name : String)
      (props : List (String × Variant)) (metadata : SnapMetadata)
      (children : List Snap)

/-- Modelled from the spec: `MultiMap::insert` of the path→id multimap
(`src/multimap.rs`, not under `src/`): set-valued, membership-based. -/
def multimapInsert (m : List (String × Nat)) (path : String) (id : Nat) :
    List (String × Nat) :=
  (path, id) :: m

/-- Modelled from the spec: `MultiMap::remove` of the path→id multimap
(`src/multimap.rs`, not under `src/`): removes the pair `(path, id)`. -/
def multimapRemove : List (String × Nat) → String → Nat → List (String × Nat)
  | [], _, _ => []
  | pr :: rest, path, id =>
    if pr.1 = path ∧ pr.2 = id then multimapRemove rest path id
    else pr :: multimapRemove rest path id

/-- The `HashMap::remove` on the metadata map: drops the entry at this key. -/
def mapErase : List (Nat × SnapMetadata) → Nat → List (Nat × SnapMetadata)
  | [], _ => []
  | kv :: rest, id => if kv.1 = id then mapErase rest id else kv :: mapErase rest id

/-- The `HashMap::insert` on the metadata map: replaces any entry at this key. -/
def mapInsert (m : List (Nat × SnapMetadata)) (id : Nat) (md : SnapMetadata) :
    List (Nat × SnapMetadata) :=
  (id, md) :: mapErase m id

/-- The `RojoTree` from `src/snapshot/tree.rs`: the instance tree (`inner`),
the metadata map, the path→id multimap, and the referent allocator of the
model. -/
structure RojoTree where
  nextRef : Nat
  root : ITree
  metadataMap : List (Nat × SnapMetadata)
  pathToIds : List (String × Nat)

/-- All referents of a forest, depth first. -/
def refsOfForest : List ITree → List Nat
  | [] => []
  | .mk r _ _ _ cs :: rest => r :: (refsOfForest cs ++ refsOfForest rest)
termination_by l => sizeOf l

/-- An id is live when the instance tree contains it. -/
def RojoTree.live (t : RojoTree) (id : Nat) : Prop :=
  id ∈ refsOfForest [t.root]

instance (t : RojoTree) (id : Nat) : Decidable (t.live id) := by
  unfold RojoTree.live
  infer_instance

/-- The `WeakDom::insert`: appends `child` to the child list of the node with
referent `parent`, wherever it occurs in the forest. -/
def attachForest (parent : Nat) (child : ITree) : List ITree → List ITree
  | [] => []
  | .mk r c n props cs :: rest =>
    if r = parent then
      .mk r c n props (cs ++ [child]) :: rest
    else
      .mk r c n props (attachForest parent child cs) :: attachForest parent child rest
termination_by l => sizeOf l

/-- The `WeakDom::insert` applied at the root tree. -/
def attachT (t : ITree) (parent : Nat) (child : ITree) : ITree :=
  (attachForest parent child [t]).headD t

/-- The `WeakDom::destroy`: removes the subtree whose root has referent
`target`. -/
def removeForest (target : Nat) : List ITree → List ITree
  | [] => []
  | .mk r c n props cs :: rest =>
    if r = target then rest
    else .mk r c n props (removeForest target cs) :: removeForest target rest
termination_by l => sizeOf l

/-- Looks up the subtree rooted at the given referent. -/
def findSubtree (target : Nat) : List ITree → Option ITree
  | [] => none
  | .mk r c n props cs :: rest =>
    if r = target then some (.mk r c n props cs)
    else
      match findSubtree target cs with
      | some t => some t
      | none => findSubtree target rest
termination_by l => sizeOf l

/-- The `RojoTree::insert_metadata` (`src/snapshot/tree.rs` lines 211–217):
insert a path→id pair for every relevant path, then store the metadata. -/
def insertMetadataOp (t : RojoTree) (id : Nat) (metadata : SnapMetadata) :
    RojoTree :=
  { t with
    pathToIds :=
      metadata.relevantPaths.foldl (fun m p => multimapInsert m p id) t.pathToIds
    metadataMap := mapInsert t.metadataMap id metadata }

/-- The `RojoTree::remove_metadata` (`src/snapshot/tree.rs` lines 221–227):
drop the metadata entry and remove each of its path→id pairs. The Rust
code unwraps the entry and panics when it is absent; that case is modelled
as a no-op and is unreachable for live ids. -/
def removeMetadataOp (t : RojoTree) (id : Nat) : RojoTree :=
  match alistLookup t.metadataMap id with
  | some metadata =>
    { t with
      metadataMap := mapErase t.metadataMap id
      pathToIds :=
        metadata.relevantPaths.foldl (fun m p => multimapRemove m p id) t.pathToIds }
  | none => t

/-- The `RojoTree::update_metadata` (`src/snapshot/tree.rs` lines 168–194):
on an occupied entry, when the relevant paths changed, remove every old
path pair and insert every new one; then store the new metadata. On a
vacant entry just store the metadata. -/
def updateMetadataOp (t : RojoTree) (id : Nat) (metadata : SnapMetadata) :
    RojoTree :=
  match alistLookup t.metadataMap id with
  | some existing =>
    let pti :=
      if existing.relevantPaths ≠ metadata.relevantPaths then
        metadata.relevantPaths.foldl (fun m p => multimapInsert m p id)
          (existing.relevantPaths.foldl (fun m p => multimapRemove m p id) t.pathToIds)
      else t.pathToIds
    { t with
      pathToIds := pti
      metadataMap := mapInsert t.metadataMap id metadata }
  | none => { t with metadataMap := mapInsert t.metadataMap id metadata }

/-- The head of each `insert_instance` call: allocate a referent, attach
the node built from the snapshot's class/name/properties under the parent
(`self.inner.insert(parent_ref, builder)`), then register its metadata
(`self.insert_metadata(referent, snapshot.metadata)`). -/
def registerNode (t : RojoTree) (parentRef : Nat) (c n : String)
    (props : List (String × Variant)) (metadata : SnapMetadata) : RojoTree :=
  insertMetadataOp
    { nextRef := t.nextRef + 1
      root := attachT t.root parentRef (.mk t.nextRef c n props [])
      metadataMap := t.metadataMap
      pathToIds := t.pathToIds }
    t.nextRef metadata

/-- The `RojoTree::insert_instance` (`src/snapshot/tree.rs` lines 127–141) on a
list of sibling snapshots: for each snapshot, allocate a referent, attach
the node under the parent, register its metadata, then recurse into its
children. -/
def insertForest (t : RojoTree) (parentRef : Nat) : List Snap → RojoTree
  | [] => t
  | .mk c n props metadata children :: rest =>
    let referent := t.nextRef
    let t2 := registerNode t parentRef c n props metadata
    let t3 := insertForest t2 referent children
    insertForest t3 parentRef rest
termination_by l => sizeOf l

/-- The `RojoTree::insert_instance` for one snapshot. -/
def insert_instance (t : RojoTree) (parentRef : Nat) (snapshot : Snap) :
    RojoTree :=
  insertForest t parentRef [snapshot]

/-- The `RojoTree::new` (`src/snapshot/tree.rs` lines 48–68): build the root
from the snapshot, register its metadata, then insert the children. -/
def RojoTree.new : Snap → RojoTree
  | .mk c n props metadata children =>
    let t : RojoTree :=
      { nextRef := 1
        root := .mk 0 c n props []
        metadataMap := []
        pathToIds := [] }
    insertForest (insertMetadataOp t 0 metadata) 0 children

/-- The referents the removal loop of `RojoTree::remove` walks: the
subtree of `id` when it is live (the loop reads children from the intact
`inner`), else just `id` itself. -/
def subtreeRefsOf (t : RojoTree) (id : Nat) : List Nat :=
  match findSubtree id [t.root] with
  | some sub => refsOfForest [sub]
  | none => [id]

/-- The `RojoTree::remove` (`src/snapshot/tree.rs` lines 152–165): walk the
subtree of `id` removing each node's metadata (the loop order — BFS in the
Rust code, DFS here — is immaterial: each referent is processed exactly
once and the per-referent operations touch disjoint entries), then destroy
the subtree in `inner`. -/
def removeOp (t : RojoTree) (id : Nat) : RojoTree :=
  let t1 := (subtreeRefsOf t id).foldl (fun acc r => removeMetadataOp acc r) t
  { t1 with
    root :=
      match t1.root with
      | .mk r c n props cs => .mk r c n props (removeForest id cs) }

/-- The state-reachability relation of the claim: a tree built by
`RojoTree::new` and transformed by any sequence of `insert_instance` (at a
live parent, as `WeakDom::insert` requires), `update_metadata` (at a live
id, as its callers use it) and `remove` (at a live non-root id, as
`WeakDom::destroy` requires). -/
inductive Reachable : RojoTree → Prop where
  | new (snapshot : Snap) : Reachable (RojoTree.new snapshot)
  | insert {t : RojoTree} (parentRef : Nat) (snapshot : Snap) :
      Reachable t → t.live parentRef →
      Reachable (insert_instance t parentRef snapshot)
  | update {t : RojoTree} (id : Nat) (metadata : SnapMetadata) :
      Reachable t → t.live id → Reachable (updateMetadataOp t id metadata)
  | remove {t : RojoTree} (id : Nat) :
      Reachable t → t.live id → id ≠ t.root.ref → Reachable (removeOp t id)

/-- The internal consistency of a `RojoTree`: referents are distinct and
below the allocator; the metadata map holds exactly the live ids; the
path→id multimap holds exactly the pairs `(p, id)` with `p` among the
relevant paths of `id`'s metadata. -/
def INV (t : RojoTree) : Prop :=
  (refsOfForest [t.root]).Nodup
  ∧ (∀ id ∈ refsOfForest [t.root], id < t.nextRef)
  ∧ (∀ id : Nat, (∃ md, alistLookup t.metadataMap id = some md) ↔ t.live id)
  ∧ (∀ (p : String) (id : Nat), (p, id) ∈ t.pathToIds ↔
      ∃ md, alistLookup t.metadataMap id = some md ∧ p ∈ md.relevantPaths)

/-! Section: tree.rs: the syncback driver (`syncback_process`) -/

/-- The metadata bag of a snapshot. -/
def Snap.metadata : Snap → SnapMetadata
  | .mk _ _ _ md _ => md

/-- The `RojoTree::update_props` (`src/snapshot/tree.rs` lines 143–150) on a
forest: replace class, name and properties of the node with the given
referent; children and metadata untouched. -/
def updatePropsForest (id : Nat) (c n : String)
    (props : List (String × Variant)) : List ITree → List ITree
  | [] => []
  | .mk r cl nm pr cs :: rest =>
    if r = id then .mk r c n props cs :: rest
    else .mk r cl nm pr (updatePropsForest id c n props cs)
      :: updatePropsForest id c n props rest
termination_by l => sizeOf l

/-- The `RojoTree::update_props` at the tree level. -/
def update_props (t : RojoTree) (id : Nat) (snapshot : Snap) : RojoTree :=
  match snapshot with
  | .mk c n props _ _ =>
    { t with root := (updatePropsForest id c n props [t.root]).headD t.root }

/-- The `SyncbackNode` from the snapshot module: old/new refs, parent ref,
path, instance snapshot, the `use_snapshot_children` flag and the
`get_children` closure. The closure is modelled by its result — the child
nodes and removed old ids it returns. -/
inductive SyncbackNodeM where
  | mk (oldRef : Option Nat) (newRef : Nat) (parentRef : Option Nat)
      (path : String) (instanceSnapshot : Snap) (useSnapshotChildren : Bool)
      (getChildren : Option (List SyncbackNodeM × List Nat))

/-- One recorded `FsSnapshot::reconcile(vfs, old, new)` call. -/
structure ReconcileCall where
  oldFs : Option FsSnapshot
  newFs : Option FsSnapshot

/-- The `child.parent_ref = Some(insert_ref)` before a push. -/
def setParentRef (r : Nat) : SyncbackNodeM → SyncbackNodeM
  | .mk o nw _ path snap usc g => .mk o nw (some r) path snap usc g

/-- The LIFO stack loop of `RojoTree::syncback_process`
(`src/snapshot/tree.rs` lines 315–396), with fuel for the while loop. Per
popped node: if its `fs_snapshot` holds any path rejected by
`context.should_syncback_path`, the node is skipped (`continue`).
Otherwise the node's `fs_snapshot` is reconciled against the old node's
(recorded in the call list; the filesystem itself is external), the tree
is updated (wholesale replace / `update_props` / fresh insert), and the
`get_children` results are pushed with their parent ref set while the
removed old ids are removed. `unwrap()` panics are modelled as errors. -/
def syncbackLoop (fuel : Nat) (t : RojoTree) (stack : List SyncbackNodeM)
    (acts : List ReconcileCall) : Except String (RojoTree × List ReconcileCall) :=
  match fuel with
  | 0 => .error "out of fuel"
  | fuel' + 1 =>
    match stack with
    | [] => .ok (t, acts)
    | .mk oldRef _newRef parentRef _path instSnapshot useSnapshotChildren
        getChildren :: rest =>
      let md := instSnapshot.metadata
      let violates :=
        match md.fsSnapshot with
        | some fs =>
          ((fs.files.map Prod.fst) ++ fs.dirs).any fun p => !(md.shouldSyncbackPath p)
        | none => false
      if violates then
        syncbackLoop fuel' t rest acts
      else
        let oldFs : Option FsSnapshot :=
          match oldRef with
          | some v => (alistLookup t.metadataMap v).bind fun m => m.fsSnapshot
          | none => none
        let acts2 := acts ++ [⟨oldFs, md.fsSnapshot⟩]
        match oldRef with
        | some oldId =>
          if useSnapshotChildren then
            match parentRef with
            | some pr =>
              syncbackLoop fuel' (insert_instance (removeOp t oldId) pr instSnapshot)
                rest acts2
            | none => .error "parent_ref unwrap"
          else
            let t2 := update_props t oldId instSnapshot
            match getChildren with
            | some (children, removed) =>
              syncbackLoop fuel'
                (removed.foldl (fun acc r2 => removeOp acc r2) t2)
                ((children.map (setParentRef oldId)).reverse ++ rest) acts2
            | none => syncbackLoop fuel' t2 rest acts2
        | none =>
          match parentRef with
          | some pr =>
            let insertRef := t.nextRef
            let t2 := insert_instance t pr instSnapshot
            match getChildren with
            | some (children, removed) =>
              syncbackLoop fuel'
                (removed.foldl (fun acc r2 => removeOp acc r2) t2)
                ((children.map (setParentRef insertRef)).reverse ++ rest) acts2
            | none => syncbackLoop fuel' t2 rest acts2
          | none => .error "parent_ref unwrap"

/-- One step of the ancestor climb: the node is syncable when its metadata
has a middleware id, the diff has a matching new ref, and the instigating
source is `Path(_)`. -/
structure ClimbEntry where
  ref : Nat
  middlewareId : Option String
  instigatingSource : Option InstigatingSource

/-- The three conditions of the ancestor climb, as one test. -/
def isSyncable (diff : Nat → Option Nat) (e : ClimbEntry) : Bool :=
  e.middlewareId.isSome && (diff e.ref).isSome
    && match e.instigatingSource with
       | some (.path _) => true
       | _ => false

/-- The ancestor-climb loop of `RojoTree::syncback_process`
(`src/snapshot/tree.rs` lines 256–293), over the chain of
ancestors-or-self of the base target (nearest first; the chain ends at the
root, whose parent lookup fails). A node with a middleware id and a
matching new ref breaks the loop only when its instigating source is
`Path(_)`; otherwise the climb continues to the parent, and past the root
it fails. -/
def climb (diff : Nat → Option Nat) : List ClimbEntry → Except String ClimbEntry
  | [] => .error "No syncable ancestor"
  | e :: rest =>
    if e.middlewareId.isSome && (diff e.ref).isSome then
      match e.instigatingSource with
      | some (.path _) => .ok e
      | _ => climb diff rest
    else climb diff rest

/-- The `RojoTree::syncback_process`: climb to the syncable ancestor, dispatch
its middleware's `syncback` (the registry dispatch is the `mwSyncback`
parameter; it returns the initial node with its parent ref already set),
then run the stack loop. -/
def syncback_process_model (fuel : Nat) (t : RojoTree) (diff : Nat → Option Nat)
    (mwSyncback : ClimbEntry → Except String SyncbackNodeM)
    (chain : List ClimbEntry) : Except String (RojoTree × List ReconcileCall) :=
  match climb diff chain with
  | .error err => .error err
  | .ok e =>
    match mwSyncback e with
    | .error err => .error err
    | .ok node => syncbackLoop fuel t [node] []

/-- Top-level deduplication as the spec describes it: root properties
against an empty seen set, then the children in stored (preorder,
first-to-last) order, keeping the first-visited occurrence of every
`UniqueId` value. -/
def fix_fwd_top : RInst → RInst
  | .mk c n props children =>
    let rp := fixProps [] props
    let rc := fixForestFwd rp.2 children
    .mk c n rp.1 rc.1

/-! Section: theorems -/

/-- Induction over forests of `RInst`, recursing both into the children of
the head and into the tail. -/
theorem forest_induction (P : List RInst → Prop)
    (hnil : P [])
    (hcons : ∀ c n props children cs, P children → P cs →
      P (RInst.mk c n props children :: cs)) :
    ∀ l, P l := by
  have key : ∀ k l, sizeOf l ≤ k → P l := by
    intro k
    induction k with
    | zero =>
      intro l h
      cases l with
      | nil => exact hnil
      | cons a cs =>
        rw [List.cons.sizeOf_spec] at h
        omega
    | succ k ih =>
      intro l h
      cases l with
      | nil => exact hnil
      | cons a cs =>
        cases a with
        | mk c n props children =>
          rw [List.cons.sizeOf_spec, RInst.mk.sizeOf_spec] at h
          exact hcons c n props children cs (ih children (by omega)) (ih cs (by omega))
  exact fun l => key (sizeOf l) l (Nat.le_refl _)

/-- C9: `is_valid_file_name` returns false for every name ending in a space
or a dot, every name containing a control character or a character from the
forbidden set, and every name in the 22-entry Windows reserved list; it
returns true for "foo.luau", "MyFolder" and "init.meta.json". -/
theorem C9_is_valid_file_name :
    (∀ s : String, strEndsWithChar s ' ' = true ∨ strEndsWithChar s '.' = true →
      is_valid_file_name s = false)
    ∧ (∀ (s : String) (c : Char), c ∈ s.data →
        (charIsControl c || FORBIDDEN_CHARS.contains c) = true →
        is_valid_file_name s = false)
    ∧ (∀ s : String, s ∈ INVALID_WINDOWS_NAMES → is_valid_file_name s = false)
    ∧ is_valid_file_name "foo.luau" = true
    ∧ is_valid_file_name "MyFolder" = true
    ∧ is_valid_file_name "init.meta.json" = true := by
  refine ⟨?_, ?_, ?_, by decide, by decide, by decide⟩
  · intro s h
    rcases h with h | h <;> simp [is_valid_file_name, h]
  · intro s c hc hbad
    have hany : s.data.any (fun c => charIsControl c || FORBIDDEN_CHARS.contains c) = true :=
      List.any_eq_true.mpr ⟨c, hc, hbad⟩
    by_cases h1 : (strEndsWithChar s ' ' || strEndsWithChar s '.') = true
    · simp only [is_valid_file_name, h1, if_true]
    · simp only [is_valid_file_name, h1, hany, if_false, if_true, Bool.false_eq_true,
        if_neg h1]
  · intro s hs
    have hc : INVALID_WINDOWS_NAMES.contains s = true := by
      simpa using hs
    by_cases h1 : (strEndsWithChar s ' ' || strEndsWithChar s '.') = true
    · simp only [is_valid_file_name, h1, if_true]
    · by_cases h2 : s.data.any (fun c => charIsControl c || FORBIDDEN_CHARS.contains c) = true
      · simp only [is_valid_file_name, h2, if_true, if_neg h1]
      · simp only [is_valid_file_name, hc, if_true, if_neg h1, if_neg h2]

/-- Witness for C9 at concrete names. -/
theorem C9_witness :
    is_valid_file_name "a " = false ∧ is_valid_file_name "has:colon" = false
      ∧ is_valid_file_name "NUL" = false :=
  ⟨C9_is_valid_file_name.1 "a " (Or.inl (by decide)),
   C9_is_valid_file_name.2.1 "has:colon" ':' (by decide) (by decide),
   C9_is_valid_file_name.2.2.1 "NUL" (by decide)⟩

/-- C10: when an old instance is supplied, `name_for_inst` returns exactly
the file name of the old instigating source's path (for every middleware
and every new-instance name, so neither is consulted), and errors when the
old instance has no instigating source. -/
theorem C10_name_for_inst :
    (∀ (mw : Middleware) (n : String) (old : OldInstMeta)
       (src : InstigatingSource) (f : String),
        old.instigatingSource = some src →
        pathFileName src.sourcePath = some f →
        name_for_inst mw n (some old) = .ok f)
    ∧ (∀ (mw : Middleware) (n : String) (old : OldInstMeta),
        old.instigatingSource = none →
        name_for_inst mw n (some old)
          = .error "members of 'old' trees should have an instigating source!") := by
  constructor
  · intro mw n old src f hsrc hf
    simp [name_for_inst, hsrc, hf]
  · intro mw n old h
    simp [name_for_inst, h]

/-- Witness for C10 at a concrete old instance. -/
theorem C10_witness :
    name_for_inst .rbxm "X" (some ⟨some (.path "/a/b.rbxm")⟩) = .ok "b.rbxm"
    ∧ name_for_inst .dir "Y" (some ⟨none⟩)
       = .error "members of 'old' trees should have an instigating source!" :=
  ⟨C10_name_for_inst.1 .rbxm "X" ⟨some (.path "/a/b.rbxm")⟩ (.path "/a/b.rbxm")
      "b.rbxm" rfl (by decide),
   C10_name_for_inst.2 .dir "Y" ⟨none⟩ rfl⟩

/-- C4: `snapshot_rbxm` succeeds iff the parsed file has exactly one
top-level instance; on success the snapshot carries the supplied name, the
single child's class, properties and children, and relevant paths `[path]`;
otherwise it errors with the one-top-level-instance message naming the
path. -/
theorem C4_snapshot_rbxm :
    ∀ (cs : List RInst) (path name : String),
      ((∃ s, snapshot_rbxm cs path name = .ok s) ↔ cs.length = 1)
      ∧ (∀ child, cs = [child] →
          snapshot_rbxm cs path name
            = .ok { name := name, className := child.className,
                    properties := child.properties, children := child.children,
                    metadata := { instigatingSource := some (.path path),
                                  relevantPaths := [path], middlewareId := none } })
      ∧ (cs.length ≠ 1 →
          snapshot_rbxm cs path name
            = .error ("Rojo currently only supports model files with one top-level instance.\n\n Check the model file at path " ++ path)) := by
  intro cs path name
  match cs with
  | [] =>
    refine ⟨?_, ?_, fun _ => rfl⟩
    · constructor
      · rintro ⟨s, hs⟩
        exact absurd hs (by simp [snapshot_rbxm])
      · intro h
        simp at h
    · intro child h
      exact absurd h (by simp)
  | [a] =>
    refine ⟨?_, ?_, ?_⟩
    · exact iff_of_true ⟨_, rfl⟩ rfl
    · intro child h
      have : a = child := by simpa using h
      subst this
      rfl
    · intro h
      exact absurd rfl h
  | a :: b :: t =>
    refine ⟨?_, ?_, fun _ => rfl⟩
    · constructor
      · rintro ⟨s, hs⟩
        exact absurd hs (by simp [snapshot_rbxm])
      · intro h
        simp at h
    · intro child h
      injection h with h1 h2
      exact absurd h2 (List.cons_ne_nil b t)

/-- Witness for C4 at a concrete single-child model and a concrete
two-child model. -/
theorem C4_witness :
    snapshot_rbxm [RInst.mk "Folder" "r" [] []] "/foo.rbxm" "foo"
      = .ok { name := "foo", className := "Folder", properties := [], children := [],
              metadata := { instigatingSource := some (.path "/foo.rbxm"),
                            relevantPaths := ["/foo.rbxm"], middlewareId := none } }
    ∧ snapshot_rbxm [RInst.mk "Folder" "r" [] [], RInst.mk "Part" "p" [] []] "/foo.rbxm" "foo"
      = .error ("Rojo currently only supports model files with one top-level instance.\n\n Check the model file at path " ++ "/foo.rbxm") :=
  ⟨(C4_snapshot_rbxm [RInst.mk "Folder" "r" [] []] "/foo.rbxm" "foo").2.1
      (RInst.mk "Folder" "r" [] []) rfl,
   (C4_snapshot_rbxm [RInst.mk "Folder" "r" [] [], RInst.mk "Part" "p" [] []]
      "/foo.rbxm" "foo").2.2 (by decide)⟩

/-- C5: when an old instance is present and the canonical hash of the
filtered new subtree equals the canonical hash of the old subtree,
`syncback_rbxm` returns an empty `FsSnapshot` and an empty children list. -/
theorem C5_syncback_rbxm_noop :
    ∀ (hash_tree : RDom → Nat → List (Nat × Nat)) (serialize : RDom → Nat → List Nat)
      (dom : RDom) (referent : Nat) (oldTree : RDom) (oldRef : Nat)
      (newSnap clonedSnap : InstanceSnapshotR) (parentPath fileName : String),
      alistLookup (hash_tree dom referent) referent
        = alistLookup (hash_tree oldTree oldRef) oldRef →
      syncback_rbxm hash_tree serialize (dom, referent) oldTree (some oldRef)
          newSnap clonedSnap parentPath fileName
        = .ok { instSnapshot := clonedSnap, fsSnapshot := FsSnapshot.new,
                children := [], removedChildren := [] } := by
  intro hash_tree serialize dom referent oldTree oldRef newSnap clonedSnap p f h
  simp [syncback_rbxm, h]

/-- Witness for C5 at a concrete hash function and trees. -/
theorem C5_witness :
    syncback_rbxm (fun _ _ => []) (fun _ _ => []) ([], 0) [] (some 0)
        { name := "n", className := "c", properties := [], children := [], metadata := {} }
        { name := "m", className := "c", properties := [], children := [], metadata := {} }
        "/p" "f.rbxm"
      = .ok { instSnapshot :=
                { name := "m", className := "c", properties := [], children := [],
                  metadata := {} },
              fsSnapshot := FsSnapshot.new, children := [], removedChildren := [] } :=
  C5_syncback_rbxm_noop (fun _ _ => []) (fun _ _ => []) [] 0 [] 0
    { name := "n", className := "c", properties := [], children := [], metadata := {} }
    { name := "m", className := "c", properties := [], children := [], metadata := {} }
    "/p" "f.rbxm" rfl

/-- The seen set after the property pass collects exactly the old seen set
and the `UniqueId` values kept by the pass; the kept values are distinct
and none of them was previously seen. -/
theorem fixProps_spec (props : List (String × Variant)) : ∀ seen,
    (∀ x, x ∈ (fixProps seen props).2 ↔
        x ∈ seen ∨ x ∈ uidsOfProps (fixProps seen props).1)
    ∧ (uidsOfProps (fixProps seen props).1).Nodup
    ∧ (∀ x ∈ uidsOfProps (fixProps seen props).1, x ∉ seen) := by
  induction props with
  | nil => intro seen; simp [fixProps, uidsOfProps]
  | cons kv rest ih =>
    intro seen
    obtain ⟨k, v⟩ := kv
    cases v with
    | uniqueId id =>
      by_cases hid : id ∈ seen
      · have e : fixProps seen ((k, Variant.uniqueId id) :: rest)
            = fixProps seen rest := by
          simp [fixProps, hid]
        rw [e]
        exact ih seen
      · have e : fixProps seen ((k, Variant.uniqueId id) :: rest)
            = ((k, Variant.uniqueId id) :: (fixProps (id :: seen) rest).1,
               (fixProps (id :: seen) rest).2) := by
          simp [fixProps, hid]
        rw [e]
        obtain ⟨ha, hb, hc⟩ := ih (id :: seen)
        refine ⟨?_, ?_, ?_⟩
        · intro x
          simp only [uidsOfProps]
          rw [ha x]
          simp only [List.mem_cons]
          tauto
        · simp only [uidsOfProps]
          refine List.nodup_cons.mpr ⟨?_, hb⟩
          intro hmem
          exact hc id hmem (List.mem_cons_self id seen)
        · simp only [uidsOfProps]
          intro x hx
          rcases List.mem_cons.mp hx with rfl | hx'
          · exact hid
          · intro hxseen
            exact hc x hx' (List.mem_cons_of_mem _ hxseen)
    | other t =>
      have e : fixProps seen ((k, Variant.other t) :: rest)
          = ((k, Variant.other t) :: (fixProps seen rest).1,
             (fixProps seen rest).2) := by
        simp [fixProps]
      rw [e]
      obtain ⟨ha, hb, hc⟩ := ih seen
      simp only [uidsOfProps]
      exact ⟨ha, hb, hc⟩

/-- The unfolding equation of `fixForestRev` on a cons cell. -/
theorem fixForestRev_cons (seen : List String) (c n : String)
    (props : List (String × Variant)) (children cs : List RInst) :
    fixForestRev seen (RInst.mk c n props children :: cs)
      = (RInst.mk c n
            (fixProps (fixForestRev seen cs).2 props).1
            (fixForestRev (fixProps (fixForestRev seen cs).2 props).2 children).1
          :: (fixForestRev seen cs).1,
         (fixForestRev (fixProps (fixForestRev seen cs).2 props).2 children).2) := by
  simp [fixForestRev]

/-- The unfolding equation of `uidsOfForest` on a cons cell. -/
theorem uidsOfForest_cons (c n : String) (props : List (String × Variant))
    (children cs : List RInst) :
    uidsOfForest (RInst.mk c n props children :: cs)
      = uidsOfProps props ++ (uidsOfForest children ++ uidsOfForest cs) := by
  simp [uidsOfForest]

/-- The seen set after the stack pass collects exactly the old seen set
and the `UniqueId` values kept in the processed forest; the kept values
are distinct and none of them was previously seen. -/
theorem fixForestRev_spec : ∀ l : List RInst, ∀ seen,
    (∀ x, x ∈ (fixForestRev seen l).2 ↔
        x ∈ seen ∨ x ∈ uidsOfForest (fixForestRev seen l).1)
    ∧ (uidsOfForest (fixForestRev seen l).1).Nodup
    ∧ (∀ x ∈ uidsOfForest (fixForestRev seen l).1, x ∉ seen) := by
  refine forest_induction _ ?_ ?_
  · intro seen
    simp [fixForestRev, uidsOfForest]
  · intro c n props children cs ihch ihcs seen
    rw [fixForestRev_cons]
    obtain ⟨acs, bcs, ccs⟩ := ihcs seen
    obtain ⟨ap, bp, cp⟩ := fixProps_spec props (fixForestRev seen cs).2
    obtain ⟨ach, bch, cch⟩ := ihch (fixProps (fixForestRev seen cs).2 props).2
    rw [uidsOfForest_cons] at *
    refine ⟨?_, ?_, ?_⟩
    · intro x
      rw [ach x, ap x, acs x]
      simp only [List.mem_append]
      tauto
    · rw [List.nodup_append, List.nodup_append]
      refine ⟨bp, ⟨bch, bcs, ?_⟩, ?_⟩
      · intro x hx hx'
        exact cch x hx ((ap x).mpr (Or.inl ((acs x).mpr (Or.inr hx'))))
      · intro x hx hx'
        rcases List.mem_append.mp hx' with h | h
        · exact cch x h ((ap x).mpr (Or.inr hx))
        · exact cp x hx ((acs x).mpr (Or.inr h))
    · intro x hx hseen
      rcases List.mem_append.mp hx with h | h
      · exact cp x h ((acs x).mpr (Or.inl hseen))
      · rcases List.mem_append.mp h with h' | h'
        · exact cch x h' ((ap x).mpr (Or.inl ((acs x).mpr (Or.inl hseen))))
        · exact ccs x h' hseen

/-- C6: after `fix_unique_id_collisions`, the multiset of `UniqueId`
property values over the whole tree has no duplicates. -/
theorem C6_fix_unique_id_nodup :
    ∀ t : RInst, (collectUids (fix_unique_id_collisions t)).Nodup := by
  intro t
  cases t with
  | mk c n props children =>
    have e : fix_unique_id_collisions (RInst.mk c n props children)
        = RInst.mk c n (fixProps [] props).1
            (fixForestRev (fixProps [] props).2 children).1 := by
      simp [fix_unique_id_collisions]
    rw [e]
    unfold collectUids
    rw [uidsOfForest_cons]
    obtain ⟨ap, bp, cp⟩ := fixProps_spec props []
    obtain ⟨ach, bch, cch⟩ := fixForestRev_spec children (fixProps [] props).2
    rw [List.nodup_append]
    refine ⟨bp, ?_, ?_⟩
    · rw [List.nodup_append]
      refine ⟨bch, by simp [uidsOfForest], ?_⟩
      intro x _ hx'
      simp [uidsOfForest] at hx'
    · intro x hx hx'
      rcases List.mem_append.mp hx' with h | h
      · exact cch x h ((ap x).mpr (Or.inr hx))
      · simp [uidsOfForest] at h

/-- The ancestor climb returns the first chain entry satisfying all three
syncability conditions. -/
theorem climb_eq_find (diff : Nat → Option Nat) : ∀ chain : List ClimbEntry,
    climb diff chain
      = (match chain.find? (fun e => isSyncable diff e) with
         | some e => Except.ok e
         | none => Except.error "No syncable ancestor") := by
  intro chain
  induction chain with
  | nil => simp [climb]
  | cons e rest ih =>
    by_cases h1 : (e.middlewareId.isSome && (diff e.ref).isSome) = true
    · cases hsrc : e.instigatingSource with
      | some src =>
        cases src with
        | path p =>
          have hsync : isSyncable diff e = true := by
            simp [isSyncable, hsrc, h1]
          rw [List.find?_cons_of_pos _ hsync]
          have e2 : climb diff (e :: rest) = .ok e := by
            simp [climb, h1, hsrc]
          rw [e2]
        | projectNode p =>
          have hsync : isSyncable diff e = false := by
            simp [isSyncable, hsrc]
          rw [List.find?_cons_of_neg _ (by simp [hsync])]
          have e2 : climb diff (e :: rest) = climb diff rest := by
            simp [climb, h1, hsrc]
          rw [e2, ih]
      | none =>
        have hsync : isSyncable diff e = false := by
          simp [isSyncable, hsrc]
        rw [List.find?_cons_of_neg _ (by simp [hsync])]
        have e2 : climb diff (e :: rest) = climb diff rest := by
          simp [climb, h1, hsrc]
        rw [e2, ih]
    · have h1f : (e.middlewareId.isSome && (diff e.ref).isSome) = false := by
        cases hq : (e.middlewareId.isSome && (diff e.ref).isSome) with
        | true => exact absurd hq h1
        | false => rfl
      have hsync : isSyncable diff e = false := by
        simp [isSyncable, h1f]
      rw [List.find?_cons_of_neg _ (by simp [hsync])]
      have e2 : climb diff (e :: rest) = climb diff rest := by
        simp [climb, h1f]
      rw [e2, ih]

/-- C3: the dispatched node is the nearest ancestor-or-self whose metadata
has a middleware id, which has a matching new ref in the diff, and whose
instigating source is `Path(_)` — the first such entry of the ancestor
chain; if no entry qualifies, `syncback_process` returns the
"No syncable ancestor" error and the reconcile loop never runs. -/
theorem C3_syncback_entry :
    ∀ (diff : Nat → Option Nat) (chain : List ClimbEntry),
      (climb diff chain
        = (match chain.find? (fun e => isSyncable diff e) with
           | some e => Except.ok e
           | none => Except.error "No syncable ancestor"))
      ∧ ((∀ e ∈ chain, isSyncable diff e = false) →
          ∀ (fuel : Nat) (t : RojoTree)
            (mw : ClimbEntry → Except String SyncbackNodeM),
            syncback_process_model fuel t diff mw chain
              = .error "No syncable ancestor")
      ∧ (∀ e : ClimbEntry, chain.find? (fun e2 => isSyncable diff e2) = some e →
          ∀ (fuel : Nat) (t : RojoTree)
            (mw : ClimbEntry → Except String SyncbackNodeM)
            (node : SyncbackNodeM), mw e = .ok node →
            syncback_process_model fuel t diff mw chain
              = syncbackLoop fuel t [node] []) := by
  intro diff chain
  refine ⟨climb_eq_find diff chain, ?_, ?_⟩
  · intro hall fuel t mw
    have hf : chain.find? (fun e => isSyncable diff e) = none := by
      rw [List.find?_eq_none]
      intro x hx
      simp [hall x hx]
    have hc : climb diff chain = .error "No syncable ancestor" := by
      rw [climb_eq_find diff chain, hf]
    simp [syncback_process_model, hc]
  · intro e hf fuel t mw node hnode
    have hc : climb diff chain = .ok e := by
      rw [climb_eq_find diff chain, hf]
    simp [syncback_process_model, hc, hnode]

/-- Witness for C3: a chain whose only entry is project-sourced yields the
"No syncable ancestor" error; a chain with a project-node child above a
path-sourced project root dispatches the root's node. -/
theorem C3_witness :
    syncback_process_model 1
        { nextRef := 1, root := ITree.mk 0 "F" "r" [] []
          metadataMap := [], pathToIds := [] }
        (fun _ => none) (fun _ => .error "m")
        [⟨2, some "directory", some (.projectNode "/x")⟩]
      = .error "No syncable ancestor"
    ∧ syncback_process_model 1
        { nextRef := 1, root := ITree.mk 0 "F" "r" [] []
          metadataMap := [], pathToIds := [] }
        (fun _ => some 5)
        (fun _ => .ok (SyncbackNodeM.mk none 5 (some 0) "/a"
          (Snap.mk "Folder" "x" [] {} []) false none))
        [⟨1, none, some (.projectNode "/a/default.project.json")⟩,
         ⟨0, some "project", some (.path "/a/default.project.json")⟩]
      = syncbackLoop 1
          { nextRef := 1, root := ITree.mk 0 "F" "r" [] []
            metadataMap := [], pathToIds := [] }
          [SyncbackNodeM.mk none 5 (some 0) "/a"
            (Snap.mk "Folder" "x" [] {} []) false none] [] :=
  ⟨(C3_syncback_entry (fun _ => none)
      [⟨2, some "directory", some (.projectNode "/x")⟩]).2.1
      (by decide) 1 _ (fun _ => .error "m"),
   (C3_syncback_entry (fun _ => some 5)
      [⟨1, none, some (.projectNode "/a/default.project.json")⟩,
       ⟨0, some "project", some (.path "/a/default.project.json")⟩]).2.2
      ⟨0, some "project", some (.path "/a/default.project.json")⟩
      rfl 1 _ _ _ rfl⟩

/-- C8: a popped node whose `fs_snapshot` holds a path rejected by
`should_syncback_path` is skipped entirely: no reconcile call is recorded,
the tree is unchanged, no children are pushed, no error is raised, and the
loop continues with the rest of the stack. -/
theorem C8_ignored_path_skips :
    ∀ (fuel : Nat) (t : RojoTree) (oldRef : Option Nat) (newRef : Nat)
      (parentRef : Option Nat) (path : String) (snap : Snap) (usc : Bool)
      (g : Option (List SyncbackNodeM × List Nat)) (rest : List SyncbackNodeM)
      (acts : List ReconcileCall) (fs : FsSnapshot),
      snap.metadata.fsSnapshot = some fs →
      ((fs.files.map Prod.fst) ++ fs.dirs).any
          (fun p => !(snap.metadata.shouldSyncbackPath p)) = true →
      syncbackLoop (fuel + 1) t
          (SyncbackNodeM.mk oldRef newRef parentRef path snap usc g :: rest) acts
        = syncbackLoop fuel t rest acts := by
  intro fuel t oldRef newRef parentRef path snap usc g rest acts fs hfs hany
  simp [syncbackLoop, hfs, hany]

/-- Witness for C8 at a concrete node with one rejected file path. -/
theorem C8_witness :
    syncbackLoop 2
        { nextRef := 1, root := ITree.mk 0 "Folder" "r" [] []
          metadataMap := [], pathToIds := [] }
        [SyncbackNodeM.mk none 5 none "/p"
          (Snap.mk "Folder" "x" []
            { fsSnapshot := some { files := [("/p/bad", [])], dirs := [] }
              shouldSyncbackPath := fun _ => false } [])
          false none]
        []
      = syncbackLoop 1
          { nextRef := 1, root := ITree.mk 0 "Folder" "r" [] []
            metadataMap := [], pathToIds := [] } [] [] :=
  C8_ignored_path_skips 1 _ none 5 none "/p" _ false none [] []
    { files := [("/p/bad", [])], dirs := [] } rfl rfl

/-- C7 counterexample: on a root with two children both carrying
`UniqueId "x"`, the stack loop keeps the SECOND child's occurrence and
deletes the first child's, because `Vec::pop` visits the last child first —
contradicting "original child order preserved, first-visited occurrence
kept", which predicts the first child keeps its property. -/
theorem C7_counterexample :
    fix_unique_id_collisions
        (RInst.mk "DataModel" "root" []
          [RInst.mk "Folder" "c1" [("UniqueId", Variant.uniqueId "x")] [],
           RInst.mk "Folder" "c2" [("UniqueId", Variant.uniqueId "x")] []])
      = RInst.mk "DataModel" "root" []
          [RInst.mk "Folder" "c1" [] [],
           RInst.mk "Folder" "c2" [("UniqueId", Variant.uniqueId "x")] []]
    ∧ fix_unique_id_collisions
        (RInst.mk "DataModel" "root" []
          [RInst.mk "Folder" "c1" [("UniqueId", Variant.uniqueId "x")] [],
           RInst.mk "Folder" "c2" [("UniqueId", Variant.uniqueId "x")] []])
      ≠ RInst.mk "DataModel" "root" []
          [RInst.mk "Folder" "c1" [("UniqueId", Variant.uniqueId "x")] [],
           RInst.mk "Folder" "c2" [] []] := by
  have e : fix_unique_id_collisions
      (RInst.mk "DataModel" "root" []
        [RInst.mk "Folder" "c1" [("UniqueId", Variant.uniqueId "x")] [],
         RInst.mk "Folder" "c2" [("UniqueId", Variant.uniqueId "x")] []])
    = RInst.mk "DataModel" "root" []
        [RInst.mk "Folder" "c1" [] [],
         RInst.mk "Folder" "c2" [("UniqueId", Variant.uniqueId "x")] []] := by
    simp [fix_unique_id_collisions, fixForestRev, fixProps]
  refine ⟨e, ?_⟩
  rw [e]
  intro h
  simp at h

/-- The `mirrorForest` distributes over list append. -/
theorem mirrorForest_append : ∀ a b : List RInst,
    mirrorForest (a ++ b) = mirrorForest a ++ mirrorForest b := by
  refine forest_induction (fun a => ∀ b, mirrorForest (a ++ b) = mirrorForest a ++ mirrorForest b) ?_ ?_
  · intro b; simp [mirrorForest]
  · intro c n props children cs _ ihcs b
    simp [mirrorForest, ihcs b]

/-- The `fixForestFwd` on an appended forest threads the seen set through the
first part, then the second. -/
theorem fixForestFwd_nil (seen : List String) : fixForestFwd seen [] = ([], seen) := by
  simp [fixForestFwd]

/-- The unfolding equation of `fixForestFwd` on a cons cell. -/
theorem fixForestFwd_cons (seen : List String) (c n : String)
    (props : List (String × Variant)) (children cs : List RInst) :
    fixForestFwd seen (RInst.mk c n props children :: cs)
      = (RInst.mk c n (fixProps seen props).1
            (fixForestFwd (fixProps seen props).2 children).1
          :: (fixForestFwd (fixForestFwd (fixProps seen props).2 children).2 cs).1,
         (fixForestFwd (fixForestFwd (fixProps seen props).2 children).2 cs).2) := by
  simp [fixForestFwd]

/-- Append law for `fixForestFwd`. -/
theorem fixForestFwd_append : ∀ a : List RInst, ∀ (seen : List String) (b : List RInst),
    fixForestFwd seen (a ++ b)
      = ((fixForestFwd seen a).1 ++ (fixForestFwd (fixForestFwd seen a).2 b).1,
         (fixForestFwd (fixForestFwd seen a).2 b).2) := by
  refine forest_induction
    (fun a => ∀ (seen : List String) (b : List RInst),
      fixForestFwd seen (a ++ b)
        = ((fixForestFwd seen a).1 ++ (fixForestFwd (fixForestFwd seen a).2 b).1,
           (fixForestFwd (fixForestFwd seen a).2 b).2)) ?_ ?_
  · intro seen b
    simp [fixForestFwd_nil]
  · intro c n props children cs _ ihcs seen b
    rw [List.cons_append, fixForestFwd_cons, fixForestFwd_cons,
      ihcs ((fixForestFwd (fixProps seen props).2 children).2) b]
    simp

/-- The `mirrorF` of a forest extended by one tree on the right puts the
mirrored tree in front. -/
theorem mirrorF_append_singleton (a : List RInst) (c n : String)
    (props : List (String × Variant)) (ch : List RInst) :
    mirrorF (a ++ [RInst.mk c n props ch])
      = RInst.mk c n props (mirrorF ch) :: mirrorF a := by
  simp [mirrorF, mirrorForest_append, mirrorForest]

/-- The stack pass equals the spec's keep-first preorder pass run on the
mirrored forest, re-mirrored. -/
theorem fixForestRev_eq_fwd_mirror : ∀ l : List RInst, ∀ seen : List String,
    fixForestRev seen l
      = (mirrorF (fixForestFwd seen (mirrorF l)).1,
         (fixForestFwd seen (mirrorF l)).2) := by
  refine forest_induction
    (fun l => ∀ seen : List String,
      fixForestRev seen l
        = (mirrorF (fixForestFwd seen (mirrorF l)).1,
           (fixForestFwd seen (mirrorF l)).2)) ?_ ?_
  · intro seen
    simp [fixForestRev, mirrorF, mirrorForest, fixForestFwd]
  · intro c n props children cs ihch ihcs seen
    have hm : mirrorF (RInst.mk c n props children :: cs)
        = mirrorF cs ++ [RInst.mk c n props (mirrorF children)] := by
      simp [mirrorF, mirrorForest]
    rw [fixForestRev_cons, hm, fixForestFwd_append, fixForestFwd_cons, fixForestFwd_nil]
    rw [ihcs seen, ihch (fixProps (fixForestFwd seen (mirrorF cs)).2 props).2]
    simp only []
    rw [mirrorF_append_singleton]

/-- C7 amended: the traversal is deterministic preorder with children
visited in reverse stored order; the kept occurrence of each `UniqueId`
value is the first visited in that order — equivalently, the code equals
the claim's keep-first, child-order-preserving algorithm applied to the
child-order-mirrored tree and mirrored back. -/
theorem C7_fix_order_amended :
    ∀ t : RInst, fix_unique_id_collisions t = mirrorT (fix_fwd_top (mirrorT t)) := by
  intro t
  cases t with
  | mk c n props children =>
    have e1 : mirrorT (RInst.mk c n props children)
        = RInst.mk c n props (mirrorF children) := rfl
    have e2 : fix_fwd_top (RInst.mk c n props (mirrorF children))
        = RInst.mk c n (fixProps [] props).1
            (fixForestFwd (fixProps [] props).2 (mirrorF children)).1 := by
      simp [fix_fwd_top]
    have e3 : fix_unique_id_collisions (RInst.mk c n props children)
        = RInst.mk c n (fixProps [] props).1
            (fixForestRev (fixProps [] props).2 children).1 := by
      simp [fix_unique_id_collisions]
    rw [e1, e2, e3, fixForestRev_eq_fwd_mirror children (fixProps [] props).2]
    rfl

/-- C2 counterexample: the metadata written by directory syncback
(`syncback_update` lines 141–146, `syncback_new` lines 339–344 of
`src/snapshot_middleware/dir.rs`) has instigating source `Path("/foo")`
but its relevant paths — rebuilt from the init-name table only — do not
contain "/foo" itself. -/
theorem C2_counterexample :
    (syncback_dir_metadata
        ["init.meta.json", "init.luau", "init.server.luau", "init.client.luau",
         "init.csv", "init.project.json"] "/foo" {}).instigatingSource
      = some (.path "/foo")
    ∧ "/foo" ∉ (syncback_dir_metadata
        ["init.meta.json", "init.luau", "init.server.luau", "init.client.luau",
         "init.csv", "init.project.json"] "/foo" {}).relevantPaths := by
  refine ⟨rfl, ?_⟩
  decide

/-- C2 amended: the forward directory snapshot's relevant paths contain
the instigating directory path, `init.meta.json` under it and every init
name under it; but directory syncback rebuilds relevant paths as exactly
the per-init-file paths and the directory path itself is never among
them. -/
theorem C2_relevant_paths_amended :
    ∀ (inits : List String) (path : String) (md : SnapMetadata),
      path ∈ snapshot_dir_relevant_paths inits path
      ∧ pathJoin path "init.meta.json" ∈ snapshot_dir_relevant_paths inits path
      ∧ (∀ i ∈ inits, pathJoin path i ∈ snapshot_dir_relevant_paths inits path)
      ∧ (syncback_dir_metadata inits path md).relevantPaths = inits.map (pathJoin path)
      ∧ (syncback_dir_metadata inits path md).instigatingSource
          = some (.path path)
      ∧ path ∉ (syncback_dir_metadata inits path md).relevantPaths := by
  intro inits path md
  refine ⟨?_, ?_, ?_, rfl, rfl, ?_⟩
  · simp [snapshot_dir_relevant_paths]
  · simp [snapshot_dir_relevant_paths]
  · intro i hi
    refine List.mem_append.mpr (Or.inr ?_)
    exact List.mem_map.mpr ⟨i, hi, rfl⟩
  · intro h
    replace h : path ∈ inits.map (pathJoin path) := h
    rcases List.mem_map.mp h with ⟨i, _, heq⟩
    have hl := congrArg String.length heq
    simp only [pathJoin] at hl
    rw [String.length_append, String.length_append] at hl
    have h1 : ("/" : String).length = 1 := rfl
    rw [h1] at hl
    omega

/-- Induction over forests of `ITree`, recursing both into the children of
the head and into the tail. -/
theorem iforest_induction (P : List ITree → Prop)
    (hnil : P [])
    (hcons : ∀ r c n props children cs, P children → P cs →
      P (ITree.mk r c n props children :: cs)) :
    ∀ l, P l := by
  have key : ∀ k l, sizeOf l ≤ k → P l := by
    intro k
    induction k with
    | zero =>
      intro l h
      cases l with
      | nil => exact hnil
      | cons a cs =>
        rw [List.cons.sizeOf_spec] at h
        omega
    | succ k ih =>
      intro l h
      cases l with
      | nil => exact hnil
      | cons a cs =>
        cases a with
        | mk r c n props children =>
          rw [List.cons.sizeOf_spec, ITree.mk.sizeOf_spec] at h
          exact hcons r c n props children cs (ih children (by omega)) (ih cs (by omega))
  exact fun l => key (sizeOf l) l (Nat.le_refl _)

/-- Induction over forests of `Snap`, recursing both into the children of
the head and into the tail. -/
theorem sforest_induction (P : List Snap → Prop)
    (hnil : P [])
    (hcons : ∀ c n props metadata children cs, P children → P cs →
      P (Snap.mk c n props metadata children :: cs)) :
    ∀ l, P l := by
  have key : ∀ k l, sizeOf l ≤ k → P l := by
    intro k
    induction k with
    | zero =>
      intro l h
      cases l with
      | nil => exact hnil
      | cons a cs =>
        rw [List.cons.sizeOf_spec] at h
        omega
    | succ k ih =>
      intro l h
      cases l with
      | nil => exact hnil
      | cons a cs =>
        cases a with
        | mk c n props metadata children =>
          rw [List.cons.sizeOf_spec, Snap.mk.sizeOf_spec] at h
          exact hcons c n props metadata children cs (ih children (by omega)) (ih cs (by omega))
  exact fun l => key (sizeOf l) l (Nat.le_refl _)

/-- Lookup after `mapErase`. -/
theorem alistLookup_mapErase (m : List (Nat × SnapMetadata)) (id i : Nat) :
    alistLookup (mapErase m id) i = if i = id then none else alistLookup m i := by
  induction m with
  | nil => simp [mapErase, alistLookup]
  | cons kv rest ih =>
    obtain ⟨k, v⟩ := kv
    by_cases hk : k = id
    · have e : mapErase ((k, v) :: rest) id = mapErase rest id := by
        simp [mapErase, hk]
      rw [e, ih]
      by_cases hi : i = id
      · rw [if_pos hi, if_pos hi]
      · have hki : ¬(k = i) := by
          intro h
          exact hi (h ▸ hk)
        rw [if_neg hi, if_neg hi]
        have e2 : alistLookup ((k, v) :: rest) i = alistLookup rest i := by
          simp [alistLookup, hki]
        rw [e2]
    · have e : mapErase ((k, v) :: rest) id = (k, v) :: mapErase rest id := by
        simp [mapErase, hk]
      rw [e]
      by_cases hki : k = i
      · have hi : ¬(i = id) := by
          intro h
          exact hk (hki.trans h)
        rw [if_neg hi]
        have e2 : alistLookup ((k, v) :: rest) i = some v := by
          simp [alistLookup, hki]
        have e3 : alistLookup ((k, v) :: mapErase rest id) i = some v := by
          simp [alistLookup, hki]
        rw [e2, e3]
      · have e2 : alistLookup ((k, v) :: rest) i = alistLookup rest i := by
          simp [alistLookup, hki]
        have e3 : alistLookup ((k, v) :: mapErase rest id) i
            = alistLookup (mapErase rest id) i := by
          simp [alistLookup, hki]
        rw [e3, ih, e2]

/-- Lookup after `mapInsert`. -/
theorem alistLookup_mapInsert (m : List (Nat × SnapMetadata)) (id i : Nat)
    (md : SnapMetadata) :
    alistLookup (mapInsert m id md) i
      = if i = id then some md else alistLookup m i := by
  by_cases hi : i = id
  · subst hi
    simp [mapInsert, alistLookup]
  · simp only [mapInsert, alistLookup, if_neg hi]
    rw [if_neg (fun h => hi h.symm), alistLookup_mapErase, if_neg hi]

/-- Membership after `multimapRemove`. -/
theorem mem_multimapRemove (m : List (String × Nat)) (path : String) (id : Nat)
    (q : String) (j : Nat) :
    (q, j) ∈ multimapRemove m path id
      ↔ (q, j) ∈ m ∧ ¬(q = path ∧ j = id) := by
  induction m with
  | nil => simp [multimapRemove]
  | cons pr rest ih =>
    obtain ⟨a, b⟩ := pr
    by_cases hab : a = path ∧ b = id
    · rw [multimapRemove, if_pos hab, ih]
      constructor
      · rintro ⟨h1, h2⟩
        exact ⟨List.mem_cons_of_mem _ h1, h2⟩
      · rintro ⟨h1, h2⟩
        rcases List.mem_cons.mp h1 with h | h
        · exact absurd (by
            obtain ⟨e1, e2⟩ := Prod.mk.injEq .. ▸ h
            exact ⟨e1.trans hab.1, e2.trans hab.2⟩) h2
        · exact ⟨h, h2⟩
    · rw [multimapRemove, if_neg hab]
      constructor
      · intro h
        rcases List.mem_cons.mp h with h | h
        · obtain ⟨e1, e2⟩ := Prod.mk.injEq .. ▸ h
          subst e1; subst e2
          exact ⟨List.mem_cons_self _ _, fun hc => hab hc⟩
        · obtain ⟨h1, h2⟩ := ih.mp h
          exact ⟨List.mem_cons_of_mem _ h1, h2⟩
      · rintro ⟨h1, h2⟩
        rcases List.mem_cons.mp h1 with h | h
        · exact h ▸ List.mem_cons_self _ _
        · exact List.mem_cons_of_mem _ (ih.mpr ⟨h, h2⟩)

/-- Membership after the relevant-path removal fold. -/
theorem mem_foldl_multimapRemove (id : Nat) (q : String) (j : Nat) :
    ∀ (paths : List String) (m : List (String × Nat)),
      (q, j) ∈ paths.foldl (fun m p => multimapRemove m p id) m
        ↔ (q, j) ∈ m ∧ ¬(j = id ∧ q ∈ paths) := by
  intro paths
  induction paths with
  | nil => intro m; simp
  | cons p rest ih =>
    intro m
    rw [List.foldl_cons, ih, mem_multimapRemove]
    simp only [List.mem_cons]
    tauto

/-- Membership after the relevant-path insertion fold. -/
theorem mem_foldl_multimapInsert (id : Nat) (q : String) (j : Nat) :
    ∀ (paths : List String) (m : List (String × Nat)),
      (q, j) ∈ paths.foldl (fun m p => multimapInsert m p id) m
        ↔ (q, j) ∈ m ∨ (j = id ∧ q ∈ paths) := by
  intro paths
  induction paths with
  | nil => intro m; simp
  | cons p rest ih =>
    intro m
    rw [List.foldl_cons, ih]
    simp only [multimapInsert, List.mem_cons, Prod.mk.injEq]
    tauto

/-- The `refsOfForest` distributes over append. -/
theorem refsOfForest_append : ∀ a b : List ITree,
    refsOfForest (a ++ b) = refsOfForest a ++ refsOfForest b := by
  refine iforest_induction
    (fun a => ∀ b, refsOfForest (a ++ b) = refsOfForest a ++ refsOfForest b) ?_ ?_
  · intro b; simp [refsOfForest]
  · intro r c n props children cs _ ihcs b
    simp [refsOfForest, ihcs b]

/-- Referents of a one-tree forest. -/
theorem refsOfForest_single (r : Nat) (c n : String)
    (props : List (String × Variant)) (ch : List ITree) :
    refsOfForest [ITree.mk r c n props ch] = r :: refsOfForest ch := by
  simp [refsOfForest]

/-- Attaching under an absent parent changes nothing. -/
theorem attachForest_no_parent (p : Nat) (c : ITree) : ∀ f : List ITree,
    p ∉ refsOfForest f → attachForest p c f = f := by
  refine iforest_induction
    (fun f => p ∉ refsOfForest f → attachForest p c f = f) ?_ ?_
  · intro _; simp [attachForest]
  · intro r cl nm props children cs ihch ihcs h
    rw [refsOfForest] at h
    simp only [List.mem_cons, List.mem_append] at h
    push_neg at h
    obtain ⟨hr, hch, hcs⟩ := h
    rw [attachForest, if_neg (fun e => hr e.symm), ihch hch, ihcs hcs]

set_option maxHeartbeats 1000000 in
/-- Membership in the referents after an attach. -/
theorem attachForest_mem (p : Nat) (c : ITree) (x : Nat) : ∀ f : List ITree,
    x ∈ refsOfForest (attachForest p c f)
      ↔ x ∈ refsOfForest f ∨ (p ∈ refsOfForest f ∧ x ∈ refsOfForest [c]) := by
  refine iforest_induction
    (fun f => x ∈ refsOfForest (attachForest p c f)
      ↔ x ∈ refsOfForest f ∨ (p ∈ refsOfForest f ∧ x ∈ refsOfForest [c])) ?_ ?_
  · simp [attachForest, refsOfForest]
  · intro r cl nm props children cs ihch ihcs
    by_cases hr : r = p
    · have e : attachForest p c (ITree.mk r cl nm props children :: cs)
          = ITree.mk r cl nm props (children ++ [c]) :: cs := by
        simp [attachForest, hr]
      rw [e]
      subst hr
      simp only [refsOfForest, refsOfForest_append, List.mem_cons, List.mem_append]
      have hrr : r = r := rfl
      tauto
    · have e : attachForest p c (ITree.mk r cl nm props children :: cs)
          = ITree.mk r cl nm props (attachForest p c children)
              :: attachForest p c cs := by
        simp [attachForest, hr]
      rw [e]
      simp only [refsOfForest, List.mem_cons, List.mem_append]
      rw [ihch, ihcs]
      have hr2 : ¬(p = r) := fun h => hr h.symm
      tauto

/-- Membership in the referents after attaching a fresh leaf. -/
theorem attachForest_leaf_mem (p y : Nat) (c n : String)
    (props : List (String × Variant)) (x : Nat) (f : List ITree) :
    x ∈ refsOfForest (attachForest p (ITree.mk y c n props []) f)
      ↔ x ∈ refsOfForest f ∨ (p ∈ refsOfForest f ∧ x = y) := by
  rw [attachForest_mem]
  simp [refsOfForest]

/-- Attaching a fresh leaf keeps the referents distinct. -/
theorem attachForest_leaf_nodup (p y : Nat) (c n : String)
    (props : List (String × Variant)) : ∀ f : List ITree,
    (refsOfForest f).Nodup → y ∉ refsOfForest f →
    (refsOfForest (attachForest p (ITree.mk y c n props []) f)).Nodup := by
  refine iforest_induction
    (fun f => (refsOfForest f).Nodup → y ∉ refsOfForest f →
      (refsOfForest (attachForest p (ITree.mk y c n props []) f)).Nodup) ?_ ?_
  · intro _ _; simp [attachForest, refsOfForest]
  · intro r cl nm pr children cs ihch ihcs hnd hy
    rw [refsOfForest] at hnd hy
    rw [List.nodup_cons, List.nodup_append] at hnd
    obtain ⟨hr, hch, hcs, hdisj⟩ := hnd
    simp only [List.mem_cons, List.mem_append] at hr hy
    push_neg at hr hy
    obtain ⟨hyr, hych, hycs⟩ := hy
    obtain ⟨hrch, hrcs⟩ := hr
    by_cases hrp : r = p
    · have e : attachForest p (ITree.mk y c n props [])
            (ITree.mk r cl nm pr children :: cs)
          = ITree.mk r cl nm pr (children ++ [ITree.mk y c n props []]) :: cs := by
        simp [attachForest, hrp]
      rw [e]
      simp only [refsOfForest, refsOfForest_append, List.append_nil]
      rw [List.nodup_cons, List.nodup_append]
      refine ⟨?_, ?_, hcs, ?_⟩
      · simp only [List.mem_append, List.mem_cons, List.not_mem_nil, or_false,
          refsOfForest, List.append_nil]
        push_neg
        exact ⟨⟨hrch, fun h => hyr h.symm⟩, hrcs⟩
      · rw [List.nodup_append]
        refine ⟨hch, by simp, ?_⟩
        intro a ha hb
        simp only [refsOfForest, List.append_nil, List.mem_cons,
          List.not_mem_nil, or_false] at hb
        subst hb
        exact hych ha
      · intro a ha hb
        rw [List.mem_append] at ha
        rcases ha with ha | ha
        · exact hdisj ha hb
        · simp only [refsOfForest, List.append_nil, List.mem_cons,
            List.not_mem_nil, or_false] at ha
          subst ha
          exact hycs hb
    · have e : attachForest p (ITree.mk y c n props [])
            (ITree.mk r cl nm pr children :: cs)
          = ITree.mk r cl nm pr
              (attachForest p (ITree.mk y c n props []) children)
            :: attachForest p (ITree.mk y c n props []) cs := by
        simp [attachForest, hrp]
      rw [e]
      simp only [refsOfForest]
      rw [List.nodup_cons, List.nodup_append]
      refine ⟨?_, ihch hch hych, ihcs hcs hycs, ?_⟩
      · intro hmem
        rw [List.mem_append] at hmem
        rcases hmem with h | h
        · rcases (attachForest_leaf_mem p y c n props r children).mp h with h2 | ⟨_, h2⟩
          · exact hrch h2
          · exact hyr h2.symm
        · rcases (attachForest_leaf_mem p y c n props r cs).mp h with h2 | ⟨_, h2⟩
          · exact hrcs h2
          · exact hyr h2.symm
      · intro a ha hb
        rcases (attachForest_leaf_mem p y c n props a children).mp ha with ha2 | ⟨hpch, hay⟩
        · rcases (attachForest_leaf_mem p y c n props a cs).mp hb with hb2 | ⟨_, hby⟩
          · exact hdisj ha2 hb2
          · exact hych (hby ▸ ha2)
        · rcases (attachForest_leaf_mem p y c n props a cs).mp hb with hb2 | ⟨hpcs, _⟩
          · exact hycs (hay ▸ hb2)
          · exact hdisj hpch hpcs

/-- A found subtree has the requested root referent and its referents are
among the forest's. -/
theorem findSubtree_spec (x : Nat) : ∀ f : List ITree, ∀ sub : ITree,
    findSubtree x f = some sub →
    sub.ref = x ∧ ∀ y ∈ refsOfForest [sub], y ∈ refsOfForest f := by
  refine iforest_induction
    (fun f => ∀ sub : ITree, findSubtree x f = some sub →
      sub.ref = x ∧ ∀ y ∈ refsOfForest [sub], y ∈ refsOfForest f) ?_ ?_
  · intro sub h; simp [findSubtree] at h
  · intro r c n props children cs ihch ihcs sub h
    by_cases hr : r = x
    · have e : findSubtree x (ITree.mk r c n props children :: cs)
          = some (ITree.mk r c n props children) := by
        simp [findSubtree, hr]
      rw [e] at h
      injection h with h
      subst h
      refine ⟨hr, ?_⟩
      intro y hy
      rw [refsOfForest_single, List.mem_cons] at hy
      rw [refsOfForest]
      rcases hy with rfl | hy
      · exact List.mem_cons_self _ _
      · exact List.mem_cons_of_mem _ (List.mem_append.mpr (Or.inl hy))
    · cases hch : findSubtree x children with
      | some t =>
        have e : findSubtree x (ITree.mk r c n props children :: cs) = some t := by
          simp [findSubtree, hr, hch]
        rw [e] at h
        injection h with h
        rw [← h]
        obtain ⟨h1, h2⟩ := ihch t hch
        refine ⟨h1, ?_⟩
        intro y hy
        rw [refsOfForest]
        exact List.mem_cons_of_mem _ (List.mem_append.mpr (Or.inl (h2 y hy)))
      | none =>
        have e : findSubtree x (ITree.mk r c n props children :: cs)
            = findSubtree x cs := by
          simp [findSubtree, hr, hch]
        rw [e] at h
        obtain ⟨h1, h2⟩ := ihcs sub h
        refine ⟨h1, ?_⟩
        intro y hy
        rw [refsOfForest]
        exact List.mem_cons_of_mem _ (List.mem_append.mpr (Or.inr (h2 y hy)))

/-- The `findSubtree` succeeds exactly on live referents. -/
theorem findSubtree_isSome (x : Nat) : ∀ f : List ITree,
    (findSubtree x f).isSome = true ↔ x ∈ refsOfForest f := by
  refine iforest_induction
    (fun f => (findSubtree x f).isSome = true ↔ x ∈ refsOfForest f) ?_ ?_
  · simp [findSubtree, refsOfForest]
  · intro r c n props children cs ihch ihcs
    by_cases hr : r = x
    · have e : findSubtree x (ITree.mk r c n props children :: cs)
          = some (ITree.mk r c n props children) := by
        simp [findSubtree, hr]
      rw [e, refsOfForest]
      simp [hr.symm]
    · cases hch : findSubtree x children with
      | some t =>
        have e : findSubtree x (ITree.mk r c n props children :: cs) = some t := by
          simp [findSubtree, hr, hch]
        rw [e, refsOfForest]
        have : x ∈ refsOfForest children := ihch.mp (by simp [hch])
        simp [this]
      | none =>
        have e : findSubtree x (ITree.mk r c n props children :: cs)
            = findSubtree x cs := by
          simp [findSubtree, hr, hch]
        have hnotch : x ∉ refsOfForest children := by
          intro hmem
          have := ihch.mpr hmem
          rw [hch] at this
          simp at this
        rw [e, refsOfForest, ihcs]
        simp only [List.mem_cons, List.mem_append]
        constructor
        · intro h; exact Or.inr (Or.inr h)
        · intro h
          rcases h with h | h | h
          · exact absurd h.symm hr
          · exact absurd h hnotch
          · exact h

/-- Removal yields a sublist of the referents. -/
theorem removeForest_sublist (x : Nat) : ∀ f : List ITree,
    (refsOfForest (removeForest x f)).Sublist (refsOfForest f) := by
  refine iforest_induction
    (fun f => (refsOfForest (removeForest x f)).Sublist (refsOfForest f)) ?_ ?_
  · simp [removeForest]
  · intro r c n props children cs ihch ihcs
    by_cases hr : r = x
    · have e : removeForest x (ITree.mk r c n props children :: cs) = cs := by
        simp [removeForest, hr]
      rw [e, refsOfForest]
      exact ((List.sublist_append_right _ _).cons r)
    · have e : removeForest x (ITree.mk r c n props children :: cs)
          = ITree.mk r c n props (removeForest x children) :: removeForest x cs := by
        simp [removeForest, hr]
      rw [e, refsOfForest, refsOfForest]
      exact (ihch.append ihcs).cons₂ r

/-- Removing an absent referent changes nothing. -/
theorem removeForest_no_target (x : Nat) : ∀ f : List ITree,
    x ∉ refsOfForest f → removeForest x f = f := by
  refine iforest_induction
    (fun f => x ∉ refsOfForest f → removeForest x f = f) ?_ ?_
  · intro _; simp [removeForest]
  · intro r c n props children cs ihch ihcs h
    rw [refsOfForest] at h
    simp only [List.mem_cons, List.mem_append] at h
    push_neg at h
    obtain ⟨hr, hch, hcs⟩ := h
    have hr2 : ¬(r = x) := fun e => hr e.symm
    have e : removeForest x (ITree.mk r c n props children :: cs)
        = ITree.mk r c n props (removeForest x children) :: removeForest x cs := by
      simp [removeForest, hr2]
    rw [e, ihch hch, ihcs hcs]

/-- Under distinct referents, removing a live subtree removes exactly its
referents. -/
theorem removeForest_mem (x : Nat) : ∀ f : List ITree,
    (refsOfForest f).Nodup → ∀ sub : ITree, findSubtree x f = some sub →
    ∀ y, y ∈ refsOfForest (removeForest x f)
      ↔ y ∈ refsOfForest f ∧ y ∉ refsOfForest [sub] := by
  refine iforest_induction
    (fun f => (refsOfForest f).Nodup → ∀ sub : ITree, findSubtree x f = some sub →
      ∀ y, y ∈ refsOfForest (removeForest x f)
        ↔ y ∈ refsOfForest f ∧ y ∉ refsOfForest [sub]) ?_ ?_
  · intro _ sub h; simp [findSubtree] at h
  · intro r c n props children cs ihch ihcs hnd sub hfind y
    rw [refsOfForest] at hnd
    rw [List.nodup_cons, List.nodup_append] at hnd
    obtain ⟨hr, hch, hcs, hdisj⟩ := hnd
    simp only [List.mem_cons, List.mem_append] at hr
    push_neg at hr
    obtain ⟨hrch, hrcs⟩ := hr
    by_cases hrx : r = x
    · have ef : findSubtree x (ITree.mk r c n props children :: cs)
          = some (ITree.mk r c n props children) := by
        simp [findSubtree, hrx]
      rw [ef] at hfind
      injection hfind with hfind
      subst hfind
      have e : removeForest x (ITree.mk r c n props children :: cs) = cs := by
        simp [removeForest, hrx]
      rw [e, refsOfForest_single, refsOfForest]
      simp only [List.mem_cons, List.mem_append]
      constructor
      · intro h
        refine ⟨Or.inr (Or.inr h), ?_⟩
        intro hbad
        rcases hbad with rfl | hbad
        · exact hrcs h
        · exact hdisj hbad h
      · rintro ⟨h1, h2⟩
        push_neg at h2
        obtain ⟨h2r, h2ch⟩ := h2
        rcases h1 with h1 | h1 | h1
        · exact absurd h1 h2r
        · exact absurd h1 h2ch
        · exact h1
    · cases hchf : findSubtree x children with
      | some t =>
        have ef : findSubtree x (ITree.mk r c n props children :: cs) = some t := by
          simp [findSubtree, hrx, hchf]
        rw [ef] at hfind
        injection hfind with hfind
        rw [← hfind]
        have hxch : x ∈ refsOfForest children :=
          (findSubtree_isSome x children).mp (by simp [hchf])
        have hxcs : x ∉ refsOfForest cs := fun hmem => hdisj hxch hmem
        have e : removeForest x (ITree.mk r c n props children :: cs)
            = ITree.mk r c n props (removeForest x children) :: cs := by
          simp [removeForest, hrx, removeForest_no_target x cs hxcs]
        obtain ⟨hsubref, hsubsub⟩ := findSubtree_spec x children t hchf
        rw [e, refsOfForest, refsOfForest]
        simp only [List.mem_cons, List.mem_append]
        rw [show (y ∈ refsOfForest (removeForest x children))
            = (y ∈ refsOfForest children ∧ y ∉ refsOfForest [t]) from
          propext (ihch hch t hchf y)]
        constructor
        · intro h
          rcases h with rfl | ⟨h1, h2⟩ | h1
          · exact ⟨Or.inl rfl, fun hbad => hrch (hsubsub y hbad)⟩
          · exact ⟨Or.inr (Or.inl h1), h2⟩
          · exact ⟨Or.inr (Or.inr h1), fun hbad => hdisj (hsubsub y hbad) h1⟩
        · rintro ⟨h1, h2⟩
          rcases h1 with h1 | h1 | h1
          · exact Or.inl h1
          · exact Or.inr (Or.inl ⟨h1, h2⟩)
          · exact Or.inr (Or.inr h1)
      | none =>
        have ef : findSubtree x (ITree.mk r c n props children :: cs)
            = findSubtree x cs := by
          simp [findSubtree, hrx, hchf]
        rw [ef] at hfind
        have hxch : x ∉ refsOfForest children := by
          intro hmem
          have := (findSubtree_isSome x children).mpr hmem
          rw [hchf] at this
          simp at this
        have e : removeForest x (ITree.mk r c n props children :: cs)
            = ITree.mk r c n props children :: removeForest x cs := by
          simp [removeForest, hrx, removeForest_no_target x children hxch]
        obtain ⟨hsubref, hsubsub⟩ := findSubtree_spec x cs sub hfind
        rw [e, refsOfForest, refsOfForest]
        simp only [List.mem_cons, List.mem_append]
        rw [show (y ∈ refsOfForest (removeForest x cs))
            = (y ∈ refsOfForest cs ∧ y ∉ refsOfForest [sub]) from
          propext (ihcs hcs sub hfind y)]
        constructor
        · intro h
          rcases h with rfl | h1 | ⟨h1, h2⟩
          · exact ⟨Or.inl rfl, fun hbad => hrcs (hsubsub y hbad)⟩
          · exact ⟨Or.inr (Or.inl h1), fun hbad => hdisj h1 (hsubsub y hbad)⟩
          · exact ⟨Or.inr (Or.inr h1), h2⟩
        · rintro ⟨h1, h2⟩
          rcases h1 with h1 | h1 | h1
          · exact Or.inl h1
          · exact Or.inr (Or.inl h1)
          · exact Or.inr (Or.inr ⟨h1, h2⟩)

/-- Metadata lookup after `insert_metadata`. -/
theorem insertMetadataOp_lookup (t : RojoTree) (id : Nat) (md : SnapMetadata)
    (i : Nat) :
    alistLookup (insertMetadataOp t id md).metadataMap i
      = if i = id then some md else alistLookup t.metadataMap i := by
  simp [insertMetadataOp, alistLookup_mapInsert]

/-- Path-index membership after `insert_metadata`. -/
theorem insertMetadataOp_mem_paths (t : RojoTree) (id : Nat) (md : SnapMetadata)
    (q : String) (j : Nat) :
    (q, j) ∈ (insertMetadataOp t id md).pathToIds
      ↔ (q, j) ∈ t.pathToIds ∨ (j = id ∧ q ∈ md.relevantPaths) := by
  simp [insertMetadataOp, mem_foldl_multimapInsert]

/-- The `remove_metadata` leaves the instance tree and the allocator alone. -/
theorem removeMetadataOp_shape (t : RojoTree) (id : Nat) :
    (removeMetadataOp t id).root = t.root
      ∧ (removeMetadataOp t id).nextRef = t.nextRef := by
  unfold removeMetadataOp
  cases alistLookup t.metadataMap id <;> simp

/-- Metadata lookup after `remove_metadata`. -/
theorem removeMetadataOp_lookup (t : RojoTree) (id : Nat) (i : Nat) :
    alistLookup (removeMetadataOp t id).metadataMap i
      = if i = id then none else alistLookup t.metadataMap i := by
  unfold removeMetadataOp
  cases h : alistLookup t.metadataMap id with
  | some md => simp [alistLookup_mapErase]
  | none =>
    by_cases hi : i = id
    · subst hi
      simp [h]
    · simp [hi]

/-- Path-index membership after `remove_metadata`, given the path-index
invariant. -/
theorem removeMetadataOp_mem_paths (t : RojoTree) (id : Nat)
    (hP : ∀ (p : String) (i : Nat), (p, i) ∈ t.pathToIds ↔
      ∃ md, alistLookup t.metadataMap i = some md ∧ p ∈ md.relevantPaths)
    (q : String) (j : Nat) :
    (q, j) ∈ (removeMetadataOp t id).pathToIds
      ↔ (q, j) ∈ t.pathToIds ∧ j ≠ id := by
  unfold removeMetadataOp
  cases h : alistLookup t.metadataMap id with
  | none =>
    simp only []
    constructor
    · intro hmem
      refine ⟨hmem, ?_⟩
      rintro rfl
      obtain ⟨md, hmd, _⟩ := (hP q j).mp hmem
      rw [h] at hmd
      cases hmd
    · exact fun hmem => hmem.1
  | some md =>
    simp only [mem_foldl_multimapRemove]
    constructor
    · rintro ⟨h1, h2⟩
      refine ⟨h1, ?_⟩
      rintro rfl
      obtain ⟨md2, hmd2, hq⟩ := (hP q j).mp h1
      rw [h] at hmd2
      injection hmd2 with hmd2
      subst hmd2
      exact h2 ⟨rfl, hq⟩
    · rintro ⟨h1, h2⟩
      exact ⟨h1, fun hbad => h2 hbad.1⟩

/-- The `remove_metadata` preserves the path-index invariant. -/
theorem removeMetadataOp_preserves (t : RojoTree) (id : Nat)
    (hP : ∀ (p : String) (i : Nat), (p, i) ∈ t.pathToIds ↔
      ∃ md, alistLookup t.metadataMap i = some md ∧ p ∈ md.relevantPaths) :
    ∀ (p : String) (i : Nat), (p, i) ∈ (removeMetadataOp t id).pathToIds ↔
      ∃ md, alistLookup (removeMetadataOp t id).metadataMap i = some md
        ∧ p ∈ md.relevantPaths := by
  intro p i
  rw [removeMetadataOp_mem_paths t id hP, removeMetadataOp_lookup, hP]
  by_cases hi : i = id
  · subst hi
    simp
  · simp [hi]

/-- The removal loop of `RojoTree::remove`: characterization of the fold of
`remove_metadata` over a referent list. -/
theorem removeFold_spec (refs : List Nat) : ∀ t : RojoTree,
    (∀ (p : String) (i : Nat), (p, i) ∈ t.pathToIds ↔
      ∃ md, alistLookup t.metadataMap i = some md ∧ p ∈ md.relevantPaths) →
    (refs.foldl (fun acc r => removeMetadataOp acc r) t).root = t.root
    ∧ (refs.foldl (fun acc r => removeMetadataOp acc r) t).nextRef = t.nextRef
    ∧ (∀ i, alistLookup
        (refs.foldl (fun acc r => removeMetadataOp acc r) t).metadataMap i
        = if i ∈ refs then none else alistLookup t.metadataMap i)
    ∧ (∀ (q : String) (j : Nat),
        (q, j) ∈ (refs.foldl (fun acc r => removeMetadataOp acc r) t).pathToIds
          ↔ (q, j) ∈ t.pathToIds ∧ j ∉ refs) := by
  induction refs with
  | nil =>
    intro t hP
    simp
  | cons r rest ih =>
    intro t hP
    obtain ⟨ihroot, ihnext, ihlookup, ihmem⟩ :=
      ih (removeMetadataOp t r) (removeMetadataOp_preserves t r hP)
    rw [List.foldl_cons]
    refine ⟨ihroot.trans (removeMetadataOp_shape t r).1,
      ihnext.trans (removeMetadataOp_shape t r).2, ?_, ?_⟩
    · intro i
      rw [ihlookup i, removeMetadataOp_lookup]
      by_cases h1 : i ∈ rest
      · simp [h1]
      · by_cases h2 : i = r
        · simp [h1, h2]
        · simp [h1, h2, List.mem_cons]
    · intro q j
      rw [ihmem q j, removeMetadataOp_mem_paths t r hP]
      simp only [List.mem_cons]
      tauto

/-- The `update_metadata` leaves the instance tree and the allocator alone. -/
theorem updateMetadataOp_shape (t : RojoTree) (id : Nat) (md : SnapMetadata) :
    (updateMetadataOp t id md).root = t.root
      ∧ (updateMetadataOp t id md).nextRef = t.nextRef := by
  unfold updateMetadataOp
  cases alistLookup t.metadataMap id <;> simp

/-- Metadata lookup after `update_metadata`. -/
theorem updateMetadataOp_lookup (t : RojoTree) (id : Nat) (md : SnapMetadata)
    (i : Nat) :
    alistLookup (updateMetadataOp t id md).metadataMap i
      = if i = id then some md else alistLookup t.metadataMap i := by
  unfold updateMetadataOp
  cases alistLookup t.metadataMap id <;> simp [alistLookup_mapInsert]

/-- Path-index membership after `update_metadata` on an occupied entry:
the pairs of `id` are exactly the new relevant paths, every other pair is
untouched. -/
theorem updateMetadataOp_mem_paths (t : RojoTree) (id : Nat)
    (md mdold : SnapMetadata)
    (hsome : alistLookup t.metadataMap id = some mdold)
    (hP : ∀ (p : String) (i : Nat), (p, i) ∈ t.pathToIds ↔
      ∃ md2, alistLookup t.metadataMap i = some md2 ∧ p ∈ md2.relevantPaths)
    (q : String) (j : Nat) :
    (q, j) ∈ (updateMetadataOp t id md).pathToIds
      ↔ ((q, j) ∈ t.pathToIds ∧ j ≠ id) ∨ (j = id ∧ q ∈ md.relevantPaths) := by
  by_cases hpaths : mdold.relevantPaths ≠ md.relevantPaths
  · have e : (updateMetadataOp t id md).pathToIds
        = md.relevantPaths.foldl (fun m p => multimapInsert m p id)
            (mdold.relevantPaths.foldl (fun m p => multimapRemove m p id)
              t.pathToIds) := by
      simp [updateMetadataOp, hsome, hpaths]
    rw [e, mem_foldl_multimapInsert, mem_foldl_multimapRemove]
    constructor
    · rintro (⟨h1, h2⟩ | ⟨rfl, h3⟩)
      · refine Or.inl ⟨h1, ?_⟩
        rintro rfl
        obtain ⟨md2, hmd2, hq⟩ := (hP q j).mp h1
        rw [hsome] at hmd2
        injection hmd2 with hmd2
        subst hmd2
        exact h2 ⟨rfl, hq⟩
      · exact Or.inr ⟨rfl, h3⟩
    · rintro (⟨h1, h2⟩ | ⟨rfl, h3⟩)
      · exact Or.inl ⟨h1, fun hbad => h2 hbad.1⟩
      · exact Or.inr ⟨rfl, h3⟩
  · push_neg at hpaths
    have e : (updateMetadataOp t id md).pathToIds = t.pathToIds := by
      simp [updateMetadataOp, hsome, hpaths]
    rw [e]
    constructor
    · intro h1
      by_cases hj : j = id
      · subst hj
        obtain ⟨md2, hmd2, hq⟩ := (hP q j).mp h1
        rw [hsome] at hmd2
        injection hmd2 with hmd2
        subst hmd2
        exact Or.inr ⟨rfl, hpaths ▸ hq⟩
      · exact Or.inl ⟨h1, hj⟩
    · rintro (⟨h1, _⟩ | ⟨rfl, h3⟩)
      · exact h1
      · exact (hP q j).mpr ⟨mdold, hsome, hpaths.symm ▸ h3⟩

/-- The `update_metadata` on a live id preserves the tree invariant. -/
theorem updateMetadataOp_INV (t : RojoTree) (id : Nat) (md : SnapMetadata)
    (h : INV t) (hlive : t.live id) : INV (updateMetadataOp t id md) := by
  obtain ⟨hnd, hbound, hM, hP⟩ := h
  obtain ⟨mdold, hold⟩ := (hM id).mpr hlive
  have hshape := updateMetadataOp_shape t id md
  refine ⟨?_, ?_, ?_, ?_⟩
  · rw [hshape.1]
    exact hnd
  · intro i hi
    rw [hshape.1] at hi
    rw [hshape.2]
    exact hbound i hi
  · intro i
    unfold RojoTree.live
    rw [hshape.1, updateMetadataOp_lookup]
    by_cases hi : i = id
    · subst hi
      simp only [if_pos rfl]
      exact iff_of_true ⟨md, rfl⟩ hlive
    · rw [if_neg hi]
      exact hM i
  · intro p i
    rw [updateMetadataOp_mem_paths t id md mdold hold hP, updateMetadataOp_lookup]
    by_cases hi : i = id
    · subst hi
      simp
    · simp only [if_neg hi]
      rw [← hP p i]
      simp [hi]

/-- Referents of the root after an `attachT`. -/
theorem attachT_refs (tr : ITree) (p : Nat) (leaf : ITree) :
    refsOfForest [attachT tr p leaf]
      = refsOfForest (attachForest p leaf [tr]) := by
  cases tr with
  | mk r c n props cs =>
    unfold attachT
    by_cases hr : r = p
    · simp [attachForest, hr]
    · simp [attachForest, hr]

/-- Inserting one node under a live parent preserves the invariant, makes
exactly the fresh referent live in addition, and bumps the allocator. -/
theorem registerNode_spec (t : RojoTree) (parentRef : Nat) (c n : String)
    (props : List (String × Variant)) (metadata : SnapMetadata)
    (hInv : INV t) (hlive : t.live parentRef) :
    INV (registerNode t parentRef c n props metadata)
    ∧ (∀ x, (registerNode t parentRef c n props metadata).live x
        ↔ t.live x ∨ x = t.nextRef)
    ∧ (registerNode t parentRef c n props metadata).nextRef = t.nextRef + 1 := by
  obtain ⟨hnd, hbound, hM, hP⟩ := hInv
  have hfresh : ¬ t.live t.nextRef := fun hmem =>
    lt_irrefl _ (hbound t.nextRef hmem)
  have hroot : (registerNode t parentRef c n props metadata).root
      = attachT t.root parentRef (ITree.mk t.nextRef c n props []) := rfl
  have hnext : (registerNode t parentRef c n props metadata).nextRef
      = t.nextRef + 1 := rfl
  have hliveiff : ∀ x, (registerNode t parentRef c n props metadata).live x
      ↔ t.live x ∨ x = t.nextRef := by
    intro x
    unfold RojoTree.live
    rw [hroot, attachT_refs, attachForest_leaf_mem]
    constructor
    · rintro (h | ⟨_, h⟩)
      · exact Or.inl h
      · exact Or.inr h
    · rintro (h | h)
      · exact Or.inl h
      · exact Or.inr ⟨hlive, h⟩
  have hlookup : ∀ i,
      alistLookup (registerNode t parentRef c n props metadata).metadataMap i
        = if i = t.nextRef then some metadata else alistLookup t.metadataMap i := by
    intro i
    exact insertMetadataOp_lookup _ t.nextRef metadata i
  have hmem : ∀ (q : String) (j : Nat),
      (q, j) ∈ (registerNode t parentRef c n props metadata).pathToIds
        ↔ (q, j) ∈ t.pathToIds ∨ (j = t.nextRef ∧ q ∈ metadata.relevantPaths) := by
    intro q j
    exact insertMetadataOp_mem_paths _ t.nextRef metadata q j
  refine ⟨⟨?_, ?_, ?_, ?_⟩, hliveiff, hnext⟩
  · show (refsOfForest [(registerNode t parentRef c n props metadata).root]).Nodup
    rw [hroot, attachT_refs]
    exact attachForest_leaf_nodup parentRef t.nextRef c n props [t.root] hnd hfresh
  · intro i hi
    have : (registerNode t parentRef c n props metadata).live i := hi
    rw [hliveiff] at this
    rw [hnext]
    rcases this with h | h
    · exact lt_trans (hbound i h) (Nat.lt_succ_self _)
    · rw [h]
      exact Nat.lt_succ_self _
  · intro i
    rw [hlookup, hliveiff]
    by_cases hi : i = t.nextRef
    · rw [if_pos hi]
      exact iff_of_true ⟨metadata, rfl⟩ (Or.inr hi)
    · rw [if_neg hi]
      rw [hM i]
      constructor
      · exact fun h => Or.inl h
      · rintro (h | h)
        · exact h
        · exact absurd h hi
  · intro p i
    rw [hmem, hlookup]
    by_cases hi : i = t.nextRef
    · rw [if_pos hi]
      constructor
      · rintro (h | ⟨_, h⟩)
        · obtain ⟨md2, hmd2, _⟩ := (hP p i).mp h
          have hl : t.live i := (hM i).mp ⟨md2, hmd2⟩
          rw [hi] at hl
          exact absurd hl hfresh
        · exact ⟨metadata, rfl, h⟩
      · rintro ⟨md2, hmd2, hq⟩
        injection hmd2 with hmd2
        subst hmd2
        exact Or.inr ⟨hi, hq⟩
    · rw [if_neg hi]
      rw [← hP p i]
      constructor
      · rintro (h | ⟨h, _⟩)
        · exact h
        · exact absurd h hi
      · exact fun h => Or.inl h

/-- The `insert_instance` of a snapshot forest under a live parent preserves
the invariant; old live ids stay live and the allocator is monotone. -/
theorem insertForest_spec : ∀ snaps : List Snap, ∀ (t : RojoTree) (parentRef : Nat),
    INV t → t.live parentRef →
    INV (insertForest t parentRef snaps)
    ∧ (∀ x, t.live x → (insertForest t parentRef snaps).live x)
    ∧ t.nextRef ≤ (insertForest t parentRef snaps).nextRef := by
  refine sforest_induction
    (fun snaps => ∀ (t : RojoTree) (parentRef : Nat),
      INV t → t.live parentRef →
      INV (insertForest t parentRef snaps)
      ∧ (∀ x, t.live x → (insertForest t parentRef snaps).live x)
      ∧ t.nextRef ≤ (insertForest t parentRef snaps).nextRef) ?_ ?_
  · intro t parentRef hInv hlive
    refine ⟨?_, ?_, ?_⟩
    · simpa [insertForest] using hInv
    · intro x hx
      simpa [insertForest] using hx
    · simp [insertForest]
  · intro c n props metadata children cs ihch ihcs t parentRef hInv hlive
    have estep : insertForest t parentRef (Snap.mk c n props metadata children :: cs)
        = insertForest
            (insertForest (registerNode t parentRef c n props metadata)
              t.nextRef children)
            parentRef cs := by
      simp [insertForest]
    rw [estep]
    obtain ⟨hInv2, hlive2, hnext2⟩ :=
      registerNode_spec t parentRef c n props metadata hInv hlive
    obtain ⟨hInv3, hmono3, hnext3⟩ :=
      ihch (registerNode t parentRef c n props metadata) t.nextRef hInv2
        ((hlive2 t.nextRef).mpr (Or.inr rfl))
    obtain ⟨hInv4, hmono4, hnext4⟩ :=
      ihcs (insertForest (registerNode t parentRef c n props metadata)
              t.nextRef children) parentRef hInv3
        (hmono3 parentRef ((hlive2 parentRef).mpr (Or.inl hlive)))
    refine ⟨hInv4, ?_, ?_⟩
    · intro x hx
      exact hmono4 x (hmono3 x ((hlive2 x).mpr (Or.inl hx)))
    · calc t.nextRef
          ≤ t.nextRef + 1 := Nat.le_succ _
        _ = (registerNode t parentRef c n props metadata).nextRef := hnext2.symm
        _ ≤ _ := le_trans hnext3 hnext4

/-- The `RojoTree::new` establishes the invariant. -/
theorem new_INV (snapshot : Snap) : INV (RojoTree.new snapshot) := by
  cases snapshot with
  | mk c n props metadata children =>
    have e : RojoTree.new (Snap.mk c n props metadata children)
        = insertForest
            (insertMetadataOp
              { nextRef := 1, root := ITree.mk 0 c n props []
                metadataMap := [], pathToIds := [] }
              0 metadata)
            0 children := by
      simp [RojoTree.new]
    rw [e]
    have hInv0 : INV (insertMetadataOp
        { nextRef := 1, root := ITree.mk 0 c n props []
          metadataMap := [], pathToIds := [] } 0 metadata) := by
      refine ⟨?_, ?_, ?_, ?_⟩
      · show (refsOfForest [ITree.mk 0 c n props []]).Nodup
        rw [refsOfForest_single]
        simp [refsOfForest]
      · intro i hi
        have h2 : i ∈ refsOfForest [ITree.mk 0 c n props []] := hi
        rw [refsOfForest_single] at h2
        simp [refsOfForest] at h2
        subst h2
        exact Nat.zero_lt_one
      · intro i
        rw [insertMetadataOp_lookup]
        unfold RojoTree.live
        show _ ↔ i ∈ refsOfForest [ITree.mk 0 c n props []]
        rw [refsOfForest_single]
        by_cases hi : i = 0
        · subst hi
          simp [refsOfForest]
        · simp [refsOfForest, hi, alistLookup]
      · intro p i
        rw [insertMetadataOp_mem_paths, insertMetadataOp_lookup]
        by_cases hi : i = 0
        · subst hi
          simp
        · simp [hi, alistLookup]
    have hlive0 : (insertMetadataOp
        { nextRef := 1, root := ITree.mk 0 c n props []
          metadataMap := [], pathToIds := [] } 0 metadata).live 0 := by
      unfold RojoTree.live
      show (0 : Nat) ∈ refsOfForest [ITree.mk 0 c n props []]
      rw [refsOfForest_single]
      exact List.mem_cons_self _ _
    exact (insertForest_spec children _ 0 hInv0 hlive0).1

/-- The `RojoTree::remove` on a live non-root id preserves the invariant and
leaves neither metadata nor path-index entries for any referent of the
removed subtree. -/
theorem removeOp_spec (t : RojoTree) (id : Nat) (hInv : INV t)
    (hlive : t.live id) (hroot : id ≠ t.root.ref) :
    INV (removeOp t id)
    ∧ (∀ r2 ∈ subtreeRefsOf t id,
        alistLookup (removeOp t id).metadataMap r2 = none
        ∧ ∀ p, (p, r2) ∉ (removeOp t id).pathToIds) := by
  obtain ⟨hnd, hbound, hM, hP⟩ := hInv
  have hsome : (findSubtree id [t.root]).isSome :=
    (findSubtree_isSome id [t.root]).mpr hlive
  obtain ⟨sub, hfind⟩ := Option.isSome_iff_exists.mp hsome
  have hrefs : subtreeRefsOf t id = refsOfForest [sub] := by
    simp [subtreeRefsOf, hfind]
  obtain ⟨hr1, hn1, hlk1, hpm1⟩ := removeFold_spec (refsOfForest [sub]) t hP
  obtain ⟨r, c, n, props, cs, hrootshape⟩ :
      ∃ r c n props cs, t.root = ITree.mk r c n props cs := by
    cases h : t.root with
    | mk r c n props cs => exact ⟨r, c, n, props, cs, rfl⟩
  have href : t.root.ref = r := by
    rw [hrootshape]
    rfl
  have hrne : ¬(r = id) := fun h => hroot (h.symm.trans href.symm)
  have hndc : (r :: refsOfForest cs).Nodup := by
    have h2 := hnd
    rw [hrootshape, refsOfForest_single] at h2
    exact h2
  have hrcs : r ∉ refsOfForest cs := (List.nodup_cons.mp hndc).1
  have hndcs : (refsOfForest cs).Nodup := (List.nodup_cons.mp hndc).2
  have hfindcs : findSubtree id cs = some sub := by
    rw [hrootshape] at hfind
    cases hcs : findSubtree id cs with
    | some t2 =>
      have e : findSubtree id [ITree.mk r c n props cs] = some t2 := by
        simp [findSubtree, hrne, hcs]
      rw [e] at hfind
      injection hfind with hfind
      rw [hfind]
    | none =>
      have e : findSubtree id [ITree.mk r c n props cs]
          = findSubtree id ([] : List ITree) := by
        simp [findSubtree, hrne, hcs]
      rw [e] at hfind
      simp [findSubtree] at hfind
  obtain ⟨hsubref, hsubsub⟩ := findSubtree_spec id cs sub hfindcs
  have hrnotsub : r ∉ refsOfForest [sub] := fun h => hrcs (hsubsub r h)
  have eroot : (removeOp t id).root = ITree.mk r c n props (removeForest id cs) := by
    simp only [removeOp, hrefs, hr1, hrootshape]
  have enext : (removeOp t id).nextRef = t.nextRef := by
    simp only [removeOp, hrefs]
    exact hn1
  have emeta : (removeOp t id).metadataMap
      = ((refsOfForest [sub]).foldl (fun acc r2 => removeMetadataOp acc r2)
          t).metadataMap := by
    simp only [removeOp, hrefs]
  have epti : (removeOp t id).pathToIds
      = ((refsOfForest [sub]).foldl (fun acc r2 => removeMetadataOp acc r2)
          t).pathToIds := by
    simp only [removeOp, hrefs]
  have hlive2 : ∀ x, (removeOp t id).live x
      ↔ (t.live x ∧ x ∉ refsOfForest [sub]) := by
    intro x
    unfold RojoTree.live
    rw [eroot, refsOfForest_single, hrootshape, refsOfForest_single]
    simp only [List.mem_cons]
    rw [removeForest_mem id cs hndcs sub hfindcs x]
    constructor
    · rintro (rfl | ⟨h1, h2⟩)
      · exact ⟨Or.inl rfl, hrnotsub⟩
      · exact ⟨Or.inr h1, h2⟩
    · rintro ⟨h1 | h1, h2⟩
      · exact Or.inl h1
      · exact Or.inr ⟨h1, h2⟩
  refine ⟨⟨?_, ?_, ?_, ?_⟩, ?_⟩
  · show (refsOfForest [(removeOp t id).root]).Nodup
    rw [eroot, refsOfForest_single, List.nodup_cons]
    constructor
    · intro h
      exact hrcs ((removeForest_sublist id cs).subset h)
    · exact List.Nodup.sublist (removeForest_sublist id cs) hndcs
  · intro i hi
    rw [enext]
    have h2 : (removeOp t id).live i := hi
    rw [hlive2] at h2
    exact hbound i h2.1
  · intro i
    rw [hlive2 i]
    rw [show alistLookup (removeOp t id).metadataMap i
        = alistLookup ((refsOfForest [sub]).foldl
            (fun acc r2 => removeMetadataOp acc r2) t).metadataMap i from by
      rw [emeta]]
    rw [hlk1 i]
    by_cases hi : i ∈ refsOfForest [sub]
    · simp only [if_pos hi]
      constructor
      · rintro ⟨md, hmd⟩
        cases hmd
      · rintro ⟨_, h2⟩
        exact absurd hi h2
    · simp only [if_neg hi]
      rw [hM i]
      constructor
      · exact fun h => ⟨h, hi⟩
      · exact fun h => h.1
  · intro p i
    rw [show ((p, i) ∈ (removeOp t id).pathToIds)
        = ((p, i) ∈ ((refsOfForest [sub]).foldl
            (fun acc r2 => removeMetadataOp acc r2) t).pathToIds) from by
      rw [epti]]
    rw [hpm1 p i]
    rw [show alistLookup (removeOp t id).metadataMap i
        = alistLookup ((refsOfForest [sub]).foldl
            (fun acc r2 => removeMetadataOp acc r2) t).metadataMap i from by
      rw [emeta]]
    rw [hlk1 i]
    by_cases hi : i ∈ refsOfForest [sub]
    · simp only [if_pos hi]
      constructor
      · rintro ⟨_, h2⟩
        exact absurd hi h2
      · rintro ⟨md, hmd, _⟩
        cases hmd
    · simp only [if_neg hi]
      rw [hP p i]
      constructor
      · exact fun h => h.1
      · exact fun h => ⟨h, hi⟩
  · intro r2 hr2
    rw [hrefs] at hr2
    constructor
    · rw [show alistLookup (removeOp t id).metadataMap r2
          = alistLookup ((refsOfForest [sub]).foldl
              (fun acc r3 => removeMetadataOp acc r3) t).metadataMap r2 from by
        rw [emeta]]
      rw [hlk1 r2]
      simp [hr2]
    · intro p hp
      rw [show ((p, r2) ∈ (removeOp t id).pathToIds)
          = ((p, r2) ∈ ((refsOfForest [sub]).foldl
              (fun acc r3 => removeMetadataOp acc r3) t).pathToIds) from by
        rw [epti]] at hp
      rw [hpm1 p r2] at hp
      exact hp.2 hr2

/-- Every reachable tree satisfies the invariant. -/
theorem INV_of_reachable : ∀ t : RojoTree, Reachable t → INV t := by
  intro t h
  induction h with
  | new snapshot => exact new_INV snapshot
  | insert parentRef snapshot hre hlive ih =>
    exact (insertForest_spec [snapshot] _ parentRef ih hlive).1
  | update id metadata hre hlive ih =>
    exact updateMetadataOp_INV _ id metadata ih hlive
  | remove id hre hlive hroot ih =>
    exact (removeOp_spec _ id ih hlive hroot).1

/-- C1: in every tree reachable by `new`, `insert_instance`,
`update_metadata` and `remove`, the path index holds exactly the pairs
`(p, id)` with `id` live and `p` among `metadata(id).relevant_paths`; and
`remove` leaves neither metadata nor path-index entries for the removed id
or any of its descendants. -/
theorem C1_path_index_invariant :
    ∀ t : RojoTree, Reachable t →
      (∀ (p : String) (id : Nat),
        (p, id) ∈ t.pathToIds
          ↔ t.live id ∧ ∃ md, alistLookup t.metadataMap id = some md
              ∧ p ∈ md.relevantPaths)
      ∧ (∀ id, t.live id → id ≠ t.root.ref →
          ∀ r2 ∈ subtreeRefsOf t id,
            alistLookup (removeOp t id).metadataMap r2 = none
            ∧ ∀ p, (p, r2) ∉ (removeOp t id).pathToIds) := by
  intro t h
  obtain ⟨hnd, hbound, hM, hP⟩ := INV_of_reachable t h
  constructor
  · intro p id
    rw [hP p id]
    constructor
    · rintro ⟨md, hmd, hq⟩
      exact ⟨(hM id).mp ⟨md, hmd⟩, md, hmd, hq⟩
    · rintro ⟨_, md, hmd, hq⟩
      exact ⟨md, hmd, hq⟩
  · intro id hlive hroot
    exact (removeOp_spec t id ⟨hnd, hbound, hM, hP⟩ hlive hroot).2

/-- Witness for C1 at a concrete one-node snapshot with one relevant
path. -/
theorem C1_witness :
    ("/foo", 0) ∈ (RojoTree.new
        (Snap.mk "Folder" "foo" [] { relevantPaths := ["/foo"] } [])).pathToIds := by
  have h := (C1_path_index_invariant
      (RojoTree.new (Snap.mk "Folder" "foo" [] { relevantPaths := ["/foo"] } []))
      (Reachable.new (Snap.mk "Folder" "foo" [] { relevantPaths := ["/foo"] } []))).1
      "/foo" 0
  have e : RojoTree.new (Snap.mk "Folder" "foo" [] { relevantPaths := ["/foo"] } [])
      = insertMetadataOp
          { nextRef := 1, root := ITree.mk 0 "Folder" "foo" [] []
            metadataMap := [], pathToIds := [] }
          0 { relevantPaths := ["/foo"] } := by
    simp [RojoTree.new, insertForest]
  refine h.mpr ⟨?_, { relevantPaths := ["/foo"] }, ?_, ?_⟩
  · rw [e]
    unfold RojoTree.live
    show (0 : Nat) ∈ refsOfForest [ITree.mk 0 "Folder" "foo" [] []]
    rw [refsOfForest_single]
    exact List.mem_cons_self _ _
  · rw [e]
    rw [insertMetadataOp_lookup]
    simp
  · simp

/-- Witness for the amended C2 at a concrete init table and path. -/
theorem C2_witness :
    pathJoin "/foo" "init.luau" ∈ snapshot_dir_relevant_paths ["init.luau"] "/foo"
    ∧ "/foo" ∉ (syncback_dir_metadata ["init.luau"] "/foo" {}).relevantPaths :=
  ⟨(C2_relevant_paths_amended ["init.luau"] "/foo" {}).2.2.1 "init.luau" (by decide),
   (C2_relevant_paths_amended ["init.luau"] "/foo" {}).2.2.2.2.2⟩

end Rojo
